import Mathlib

/-!
Verification of the Grust directed-graph library (graph store, traversal,
topological ordering, row layout, diagram rendering, component partition).

The Rust source keys every node by `hash(label) : u64`, where the external
identity function is required to be collision-free over the active label set
(spec sections 2, 3 and 9).  Under that documented precondition the key is in
bijection with the label, so the embedding keys nodes by the label itself and
`HashMap<u64, Node<T>>` becomes an association list of nodes looked up by
label.  `HashMap`/`HashSet` iteration order is unspecified in Rust; the list
order of the embedding fixes one concrete enumeration order.
-/

namespace Grust

/-- Node from src/src/graph.rs: a label plus the outgoing-edge map
`edges : HashMap<u64, i64>` (key is target, value is weight). -/
structure Node (α : Type) where
  label : α
  edges : List (α × Int)
deriving DecidableEq, Repr

/-- Graph from src/src/graph.rs: `nodes : HashMap<u64, Node<T>>`, keyed by the
hash of the node label (here: by the label itself). -/
structure Graph (α : Type) where
  nodes : List (Node α)
deriving DecidableEq, Repr

variable {α : Type} [DecidableEq α]

namespace Graph

/-- Graph::new / Default: the empty graph. -/
def empty : Graph α := ⟨[]⟩

/-- Graph::get: look the node up by the hash of its label. -/
def get (g : Graph α) (l : α) : Option (Node α) :=
  g.nodes.find? (fun n => n.label = l)

/-- Key-set test: `self.nodes.contains_key(&hash(label))`. -/
def containsKey (g : Graph α) (l : α) : Bool :=
  (g.get l).isSome

/-- Labels of the graph in enumeration order (`self.iter()`). -/
def keyList (g : Graph α) : List α :=
  g.nodes.map (fun n => n.label)

/-- Graph::size from src/src/util.rs: `self.nodes.keys().len()`. -/
def size (g : Graph α) : Nat :=
  g.nodes.length

/-- HashMap::insert on the node map: overwrite the entry with the same key,
append a fresh entry otherwise (Graph::add_node). -/
def insertNode : List (Node α) → Node α → List (Node α)
  | [], n => [n]
  | m :: t, n => if m.label = n.label then n :: t else m :: insertNode t n

/-- Graph::add_node from src/src/graph.rs. -/
def addNode (g : Graph α) (n : Node α) : Graph α :=
  ⟨insertNode g.nodes n⟩

/-- Graph::add from src/src/graph.rs: insert a node with no edges. -/
def add (g : Graph α) (l : α) : Graph α :=
  addNode g ⟨l, []⟩

/-- Replace (in place) the node stored under key `l` by `f` applied to it;
models `self.nodes.get_mut(&hash(l))` followed by a mutation. -/
def updateNode : List (Node α) → α → (Node α → Node α) → List (Node α)
  | [], _, _ => []
  | m :: t, l, f => if m.label = l then f m :: t else m :: updateNode t l f

/-- HashMap::insert on an edge map (Node::connect_to body):
`self.edges.insert(hash(to), w)`. -/
def edgeInsert : List (α × Int) → α → Int → List (α × Int)
  | [], k, v => [(k, v)]
  | e :: t, k, v => if e.1 = k then (k, v) :: t else e :: edgeInsert t k v

/-- HashMap::remove on an edge map (Node::disconnect_from body):
`self.edges.remove(&hash(from))`. -/
def edgeRemove : List (α × Int) → α → List (α × Int)
  | [], _ => []
  | e :: t, k => if e.1 = k then t else e :: edgeRemove t k

/-- Weight stored on the edge `from -> to`, if any. -/
def edgeWeight (g : Graph α) (a b : α) : Option Int :=
  (g.get a).bind (fun n => (n.edges.find? (fun e => e.1 = b)).map (fun e => e.2))

/-- Targets of one node entry: the keys of its edge map, in enumeration
order. -/
def targetsOf (n : Node α) : List α :=
  n.edges.map (fun e => e.1)

/-- Modelled from the spec: `Graph::neighbors` is used by src/src/iter.rs,
src/src/util.rs and src/src/fmt.rs but its definition is not among the given
sources; per spec section 4.1 (`adjacent(label)`) it yields the labels
adjacent to `label`, signalling "absent" for an unknown label.  It returns
the target labels of the node's edge map in enumeration order, `none` when
the label is not in the graph. -/
def neighborsOpt (g : Graph α) (l : α) : Option (List α) :=
  (g.get l).map targetsOf

/-- Neighbor list with the "absent" case collapsed to `[]` (an absent node
has no outgoing edges to follow). -/
def tgt (g : Graph α) (l : α) : List α :=
  (g.neighborsOpt l).getD []

/-- Edge relation of the graph: `Adj g x y` holds when the node stored at `x`
has an edge whose target key is `y`. -/
def Adj (g : Graph α) (x y : α) : Prop :=
  y ∈ g.tgt x

instance (g : Graph α) (x y : α) : Decidable (Adj g x y) := by
  unfold Adj; infer_instance

/-- Graph::remove from src/src/graph.rs: delete the node if present, then
strip every other node's edge that targets it; `None` when absent. -/
def removeOp (g : Graph α) (l : α) : Option (Node α) × Graph α :=
  match g.get l with
  | none => (none, g)
  | some n =>
    let rest := g.nodes.eraseP (fun m => m.label = l)
    (some n, ⟨rest.map (fun m => ⟨m.label, edgeRemove m.edges l⟩)⟩)

/-- One step of the depth-first Walk of src/src/iter.rs (`Walk::next`, Depth
mode): pop the front of the buffer, skipping entries already visited; emit the
popped label, push all its neighbors to the front (`push_front` one by one, so
reversed), and mark it visited.  Fuel bounds the number of loop steps; with
the fuel used below it never runs out. -/
def walkDepth (g : Graph α) : Nat → List α → List α → List α
  | 0, _, _ => []
  | fuel + 1, stack, vis =>
    match stack with
    | [] => []
    | x :: rest =>
      if x ∈ vis then walkDepth g fuel rest vis
      else x :: walkDepth g fuel ((g.tgt x).reverse ++ rest) (x :: vis)

/-- Fuel that always suffices to drain the Walk: one pop for the initial
buffer entry plus, for each node, one visit plus one pop per pushed
neighbor. -/
def walkFuel (g : Graph α) : Nat :=
  1 + (g.nodes.map (fun n => 1 + n.edges.length)).sum

/-- Labels emitted by `self.walk(s, Mode::Depth)` run to exhaustion, i.e. the
full visit list of the depth-first traversal started at `s` (the source's
`self.dfs(to)` in Graph::connect). -/
def reachList (g : Graph α) (s : α) : List α :=
  walkDepth g (walkFuel g) [s] []

/-- Graph::connect from src/src/graph.rs: reject self-connection, then
missing endpoints, then any `to -> .. -> from` path found by the depth-first
walk from `to`; otherwise insert the edge with weight 1.  The boolean is the
`accepted` result; the graph component is the store after the call. -/
def connect (g : Graph α) (a b : α) : Bool × Graph α :=
  if a = b then (false, g)
  else if ¬ (g.containsKey a ∧ g.containsKey b) then (false, g)
  else if a ∈ reachList g b then (false, g)
  else (true, ⟨updateNode g.nodes a (fun n => ⟨n.label, edgeInsert n.edges b 1⟩)⟩)

/-- Graph::disconnect from src/src/graph.rs: `true` iff the `to` key exists
and the `from` node exists, in which case `from`'s edge to `to` (if any) is
removed. -/
def disconnect (g : Graph α) (a b : α) : Bool × Graph α :=
  if g.containsKey b ∧ g.containsKey a then
    (true, ⟨updateNode g.nodes a (fun n => ⟨n.label, edgeRemove n.edges b⟩)⟩)
  else (false, g)

/-- Graph::init from src/src/graph.rs: add each label in sequence order. -/
def init (ls : List α) : Graph α :=
  ls.foldl add empty

/-- Extend<T> for Graph<T> from src/src/util.rs: add each label. -/
def extendLabels (g : Graph α) (ls : List α) : Graph α :=
  ls.foldl add g

/-- Extend<(&T,&T)> for Graph<T> from src/src/util.rs: attempt connect on
each pair in order, keeping the store of each attempt. -/
def extendEdges (g : Graph α) (ps : List (α × α)) : Graph α :=
  ps.foldl (fun h p => (connect h p.1 p.2).2) g

/-- Graph::indegrees from src/src/util.rs, described by the content of the
map it builds: every node label is a key, and the value counts one increment
per edge-map entry targeting the label, over all nodes. -/
def indeg (g : Graph α) (v : α) : Nat :=
  (g.nodes.map (fun n => (targetsOf n).count v)).sum

/-- Graph::sources from src/src/util.rs: the labels (in enumeration order)
whose indegree is 0. -/
def sourcesList (g : Graph α) : List α :=
  g.keyList.filter (fun k => indeg g k = 0)

end Graph

namespace Graph

/-- Sum of the per-node fuel of the nodes not yet visited. -/
def potSum (g : Graph α) (vis : List α) : Nat :=
  ((g.nodes.filter (fun n => n.label ∉ vis)).map (fun n => 1 + n.edges.length)).sum

/-- Potential of a Walk state: one unit per buffer entry plus the fuel of the
unvisited nodes.  Every step of `walkDepth` strictly decreases it. -/
def pot (g : Graph α) (stack vis : List α) : Nat :=
  stack.length + potSum g vis

lemma sum_le_of_sublist {l1 l2 : List Nat} (h : l1.Sublist l2) : l1.sum ≤ l2.sum := by
  induction h with
  | slnil => exact Nat.le_refl 0
  | cons a _ ih => simpa using Nat.le_trans ih (Nat.le_add_left _ _)
  | cons₂ a _ ih => simpa using Nat.add_le_add_left ih a

lemma filterSum_mono (l : List (Node α)) (x : α) (vis : List α) :
    ((l.filter (fun n => n.label ∉ x :: vis)).map (fun n => 1 + n.edges.length)).sum ≤
    ((l.filter (fun n => n.label ∉ vis)).map (fun n => 1 + n.edges.length)).sum := by
  refine sum_le_of_sublist (List.Sublist.map _ (List.monotone_filter_right l ?_))
  intro n hn
  simp only [decide_eq_true_eq, List.mem_cons, not_or] at *
  tauto

lemma potSum_cons_le (g : Graph α) (x : α) (vis : List α) :
    potSum g (x :: vis) ≤ potSum g vis :=
  filterSum_mono g.nodes x vis

lemma potSum_of_get_none (g : Graph α) (x : α) (vis : List α)
    (h : g.get x = none) : potSum g (x :: vis) = potSum g vis := by
  unfold potSum
  have hx : ∀ n ∈ g.nodes, ¬ n.label = x := by
    intro n hn
    have := List.find?_eq_none.mp h n hn
    simpa using this
  have : List.filter (fun n => decide (n.label ∉ x :: vis)) g.nodes =
      List.filter (fun n => decide (n.label ∉ vis)) g.nodes := by
    apply List.filter_congr
    intro n hn
    simp only [decide_eq_true_eq, List.mem_cons, not_or, decide_eq_decide]
    have := hx n hn
    tauto
  rw [this]

lemma findSum_le (x : α) (vis : List α) (n : Node α) (hx : x ∉ vis) :
    ∀ (l : List (Node α)), l.find? (fun m => m.label = x) = some n →
    ((l.filter (fun m => m.label ∉ x :: vis)).map (fun m => 1 + m.edges.length)).sum +
      (1 + n.edges.length) ≤
    ((l.filter (fun m => m.label ∉ vis)).map (fun m => 1 + m.edges.length)).sum := by
  intro l
  induction l with
  | nil => intro h; simp at h
  | cons a t ih =>
    intro h
    by_cases hm : a.label = x
    · rw [List.find?_cons_of_pos _ (by simpa using hm)] at h
      obtain rfl : a = n := by cases h; rfl
      have h1 : List.filter (fun m => decide (m.label ∉ x :: vis)) (a :: t) =
          List.filter (fun m => decide (m.label ∉ x :: vis)) t := by
        rw [List.filter_cons]; simp [hm]
      have h2 : List.filter (fun m => decide (m.label ∉ vis)) (a :: t) =
          a :: List.filter (fun m => decide (m.label ∉ vis)) t := by
        rw [List.filter_cons]; simp [hm, hx]
      rw [h1, h2]
      simp only [List.map_cons, List.sum_cons]
      have := filterSum_mono t x vis
      omega
    · rw [List.find?_cons_of_neg _ (by simpa using hm)] at h
      have ihh := ih h
      by_cases hv : a.label ∈ vis
      · have h1 : List.filter (fun m => decide (m.label ∉ x :: vis)) (a :: t) =
            List.filter (fun m => decide (m.label ∉ x :: vis)) t := by
          rw [List.filter_cons]; simp [hv]
        have h2 : List.filter (fun m => decide (m.label ∉ vis)) (a :: t) =
            List.filter (fun m => decide (m.label ∉ vis)) t := by
          rw [List.filter_cons]; simp [hv]
        rw [h1, h2]; exact ihh
      · have h1 : List.filter (fun m => decide (m.label ∉ x :: vis)) (a :: t) =
            a :: List.filter (fun m => decide (m.label ∉ x :: vis)) t := by
          rw [List.filter_cons]; simp [hv, hm]
        have h2 : List.filter (fun m => decide (m.label ∉ vis)) (a :: t) =
            a :: List.filter (fun m => decide (m.label ∉ vis)) t := by
          rw [List.filter_cons]; simp [hv]
        rw [h1, h2]
        simp only [List.map_cons, List.sum_cons]
        omega

lemma potSum_of_get_some (g : Graph α) (x : α) (vis : List α) (n : Node α)
    (h : g.get x = some n) (hx : x ∉ vis) :
    potSum g (x :: vis) + (1 + n.edges.length) ≤ potSum g vis :=
  findSum_le x vis n hx g.nodes h

lemma tgt_of_get_none (g : Graph α) (x : α) (h : g.get x = none) : g.tgt x = [] := by
  unfold tgt neighborsOpt
  rw [h]; rfl

lemma tgt_of_get_some (g : Graph α) (x : α) (n : Node α) (h : g.get x = some n) :
    g.tgt x = targetsOf n := by
  unfold tgt neighborsOpt
  rw [h]; rfl

lemma pot_dec (g : Graph α) (x : α) (rest vis : List α) (hx : x ∉ vis) :
    pot g ((g.tgt x).reverse ++ rest) (x :: vis) + 1 ≤ pot g (x :: rest) vis := by
  unfold pot
  rw [List.length_append, List.length_reverse, List.length_cons]
  rcases hget : g.get x with _ | n
  · rw [tgt_of_get_none g x hget, potSum_of_get_none g x vis hget]
    simp only [List.length_nil]
    omega
  · rw [tgt_of_get_some g x n hget]
    have := potSum_of_get_some g x vis n hget hx
    have hlen : (targetsOf n).length = n.edges.length := by
      unfold targetsOf; simp
    omega

lemma walk_sound (g : Graph α) : ∀ (fuel : Nat) (stack vis : List α) (y : α),
    y ∈ walkDepth g fuel stack vis →
    ∃ s ∈ stack, Relation.ReflTransGen (Adj g) s y := by
  intro fuel
  induction fuel with
  | zero => intro stack vis y hy; simp [walkDepth] at hy
  | succ f ih =>
    intro stack vis y hy
    match stack with
    | [] => simp [walkDepth] at hy
    | x :: rest =>
      rw [walkDepth] at hy
      by_cases hv : x ∈ vis
      · rw [if_pos hv] at hy
        obtain ⟨s, hs, hr⟩ := ih rest vis y hy
        exact ⟨s, List.mem_cons_of_mem _ hs, hr⟩
      · rw [if_neg hv] at hy
        rcases List.mem_cons.mp hy with hxy | hy'
        · exact ⟨x, List.mem_cons_self _ _, hxy ▸ Relation.ReflTransGen.refl⟩
        · obtain ⟨s, hs, hr⟩ := ih _ _ y hy'
          rcases List.mem_append.mp hs with hst | hsr
          · refine ⟨x, List.mem_cons_self _ _, Relation.ReflTransGen.head ?_ hr⟩
            exact List.mem_reverse.mp hst
          · exact ⟨s, List.mem_cons_of_mem _ hsr, hr⟩

lemma walk_closure (g : Graph α) : ∀ (fuel : Nat) (stack vis : List α),
    pot g stack vis ≤ fuel →
    (∀ v ∈ vis, ∀ w, Adj g v w → w ∈ vis ∨ w ∈ stack) →
    (∀ s ∈ stack, s ∈ vis ∨ s ∈ walkDepth g fuel stack vis) ∧
    (∀ v w, Adj g v w → (v ∈ vis ∨ v ∈ walkDepth g fuel stack vis) →
      (w ∈ vis ∨ w ∈ walkDepth g fuel stack vis)) := by
  intro fuel
  induction fuel with
  | zero =>
    intro stack vis hpot hinv
    have hstack : stack = [] := by
      have : stack.length = 0 := by
        unfold pot at hpot; omega
      exact List.length_eq_zero.mp this
    subst hstack
    constructor
    · intro s hs; simp at hs
    · intro v w hadj hv
      rcases hv with hv | hv
      · rcases hinv v hv w hadj with h | h
        · exact Or.inl h
        · simp at h
      · simp [walkDepth] at hv
  | succ f ih =>
    intro stack vis hpot hinv
    match stack with
    | [] =>
      constructor
      · intro s hs; simp at hs
      · intro v w hadj hv
        rcases hv with hv | hv
        · rcases hinv v hv w hadj with h | h
          · exact Or.inl h
          · simp at h
        · simp [walkDepth] at hv
    | x :: rest =>
      rw [walkDepth]
      by_cases hv : x ∈ vis
      · rw [if_pos hv]
        have hpot' : pot g rest vis ≤ f := by
          unfold pot at hpot ⊢
          simp only [List.length_cons] at hpot
          omega
        have hinv' : ∀ v ∈ vis, ∀ w, Adj g v w → w ∈ vis ∨ w ∈ rest := by
          intro v hvv w hadj
          rcases hinv v hvv w hadj with h | h
          · exact Or.inl h
          · rcases List.mem_cons.mp h with h | h
            · exact Or.inl (h ▸ hv)
            · exact Or.inr h
        obtain ⟨ih1, ih2⟩ := ih rest vis hpot' hinv'
        constructor
        · intro s hs
          rcases List.mem_cons.mp hs with h | h
          · exact Or.inl (h ▸ hv)
          · exact ih1 s h
        · exact ih2
      · rw [if_neg hv]
        have hpot' : pot g ((g.tgt x).reverse ++ rest) (x :: vis) ≤ f := by
          have := pot_dec g x rest vis hv
          omega
        have hinv' : ∀ v ∈ x :: vis, ∀ w, Adj g v w →
            w ∈ x :: vis ∨ w ∈ (g.tgt x).reverse ++ rest := by
          intro v hvv w hadj
          rcases List.mem_cons.mp hvv with h | h
          · subst h
            exact Or.inr (List.mem_append.mpr (Or.inl (List.mem_reverse.mpr hadj)))
          · rcases hinv v h w hadj with h2 | h2
            · exact Or.inl (List.mem_cons_of_mem _ h2)
            · rcases List.mem_cons.mp h2 with h3 | h3
              · exact Or.inl (h3 ▸ List.mem_cons_self _ _)
              · exact Or.inr (List.mem_append.mpr (Or.inr h3))
        obtain ⟨ih1, ih2⟩ := ih ((g.tgt x).reverse ++ rest) (x :: vis) hpot' hinv'
        constructor
        · intro s hs
          rcases List.mem_cons.mp hs with h | h
          · exact Or.inr (h ▸ List.mem_cons_self _ _)
          · rcases ih1 s (List.mem_append.mpr (Or.inr h)) with h2 | h2
            · rcases List.mem_cons.mp h2 with h3 | h3
              · exact Or.inr (h3 ▸ List.mem_cons_self _ _)
              · exact Or.inl h3
            · exact Or.inr (List.mem_cons_of_mem _ h2)
        · intro v w hadj hvm
          have hvm' : v ∈ x :: vis ∨ v ∈ walkDepth g f ((g.tgt x).reverse ++ rest) (x :: vis) := by
            rcases hvm with h | h
            · exact Or.inl (List.mem_cons_of_mem _ h)
            · rcases List.mem_cons.mp h with h2 | h2
              · exact Or.inl (h2 ▸ List.mem_cons_self _ _)
              · exact Or.inr h2
          rcases ih2 v w hadj hvm' with h | h
          · rcases List.mem_cons.mp h with h2 | h2
            · exact Or.inr (h2 ▸ List.mem_cons_self _ _)
            · exact Or.inl h2
          · exact Or.inr (List.mem_cons_of_mem _ h)

lemma reach_complete (g : Graph α) (s y : α)
    (h : Relation.ReflTransGen (Adj g) s y) : y ∈ reachList g s := by
  have hpot : pot g [s] [] ≤ walkFuel g := by
    unfold pot potSum walkFuel
    simp
  have hinv : ∀ v ∈ ([] : List α), ∀ w, Adj g v w → w ∈ ([] : List α) ∨ w ∈ [s] := by
    intro v hvv; simp at hvv
  obtain ⟨h1, h2⟩ := walk_closure g (walkFuel g) [s] [] hpot hinv
  have hs : s ∈ reachList g s := by
    rcases h1 s (List.mem_cons_self _ _) with h | h
    · simp at h
    · exact h
  clear h1
  induction h with
  | refl => exact hs
  | tail hab hr ihh =>
    rcases h2 _ _ hr (Or.inr ihh) with h | h
    · simp at h
    · exact h

lemma reach_iff (g : Graph α) (s y : α) :
    y ∈ reachList g s ↔ Relation.ReflTransGen (Adj g) s y := by
  constructor
  · intro h
    obtain ⟨t, ht, hr⟩ := walk_sound g (walkFuel g) [s] [] y h
    rcases List.mem_singleton.mp ht with rfl
    exact hr
  · exact reach_complete g s y

/-- Spec notion of DAG-ness (section 3, Edge invariant): the edge relation,
viewed over all nodes, contains no directed cycle. -/
def Acyclic (g : Graph α) : Prop :=
  ∀ x, ¬ Relation.TransGen (Adj g) x x

/-- Executable acyclicity check: no stored edge `x -> y` admits a walk from
`y` back to `x`. -/
def acyclicB (g : Graph α) : Bool :=
  g.keyList.all (fun x => (g.tgt x).all (fun y => decide (x ∉ reachList g y)))

lemma adj_mem_keyList {g : Graph α} {x y : α} (h : Adj g x y) : x ∈ g.keyList := by
  unfold Adj tgt neighborsOpt at h
  rcases hget : g.get x with _ | n
  · rw [hget] at h; simp at h
  · unfold Graph.get at hget
    have := List.mem_of_find?_eq_some hget
    have hlab := List.find?_some hget
    simp only [decide_eq_true_eq] at hlab
    unfold keyList
    exact hlab ▸ List.mem_map_of_mem _ this

lemma acyclicB_iff (g : Graph α) : acyclicB g = true ↔ Acyclic g := by
  unfold acyclicB
  rw [List.all_eq_true]
  constructor
  · intro h x hcyc
    obtain ⟨b, hadj, hrtg⟩ := Relation.TransGen.head'_iff.mp hcyc
    have hx := h x (adj_mem_keyList hadj)
    rw [List.all_eq_true] at hx
    have hb := hx b hadj
    simp only [decide_eq_true_eq] at hb
    exact hb ((reach_iff g b x).mpr hrtg)
  · intro hacyc x _
    rw [List.all_eq_true]
    intro y hy
    simp only [decide_eq_true_eq]
    intro hmem
    have hrtg := (reach_iff g y x).mp hmem
    exact hacyc x (Relation.TransGen.head' hy hrtg)

lemma updateNode_map_label (l : List (Node α)) (a : α) (f : Node α → Node α)
    (hf : ∀ n, (f n).label = n.label) :
    (updateNode l a f).map (fun n => n.label) = l.map (fun n => n.label) := by
  induction l with
  | nil => rfl
  | cons m t ih =>
    unfold updateNode
    by_cases hm : m.label = a
    · simp [hm, hf]
    · simp only [hm, if_false, List.map_cons, ih]

lemma find?_updateNode_ne (l : List (Node α)) (a x : α) (f : Node α → Node α)
    (hf : ∀ n, (f n).label = n.label) (hx : x ≠ a) :
    (updateNode l a f).find? (fun n => n.label = x) = l.find? (fun n => n.label = x) := by
  induction l with
  | nil => rfl
  | cons m t ih =>
    unfold updateNode
    by_cases hm : m.label = a
    · rw [if_pos hm]
      have h1 : ¬ ((f m).label = x) := by rw [hf, hm]; exact fun h => hx h.symm
      have h2 : ¬ (m.label = x) := by rw [hm]; exact fun h => hx h.symm
      rw [List.find?_cons_of_neg _ (by simpa using h1), List.find?_cons_of_neg _ (by simpa using h2)]
    · rw [if_neg hm]
      by_cases hmx : m.label = x
      · rw [List.find?_cons_of_pos _ (by simpa using hmx),
          List.find?_cons_of_pos _ (by simpa using hmx)]
      · rw [List.find?_cons_of_neg _ (by simpa using hmx),
          List.find?_cons_of_neg _ (by simpa using hmx), ih]

lemma find?_updateNode_eq (l : List (Node α)) (a : α) (f : Node α → Node α)
    (hf : ∀ n, (f n).label = n.label) :
    (updateNode l a f).find? (fun n => n.label = a) =
      (l.find? (fun n => n.label = a)).map f := by
  induction l with
  | nil => rfl
  | cons m t ih =>
    unfold updateNode
    by_cases hm : m.label = a
    · rw [if_pos hm]
      rw [List.find?_cons_of_pos _ (by simpa [hf] using hm),
        List.find?_cons_of_pos _ (by simpa using hm)]
      rfl
    · rw [if_neg hm]
      rw [List.find?_cons_of_neg _ (by simpa using hm),
        List.find?_cons_of_neg _ (by simpa using hm), ih]

lemma find?_edgeInsert_eq (es : List (α × Int)) (k : α) (v : Int) :
    (edgeInsert es k v).find? (fun e => e.1 = k) = some (k, v) := by
  induction es with
  | nil => simp [edgeInsert]
  | cons e t ih =>
    unfold edgeInsert
    by_cases he : e.1 = k
    · rw [if_pos he, List.find?_cons_of_pos _ (by simp)]
    · rw [if_neg he, List.find?_cons_of_neg _ (by simpa using he), ih]

lemma find?_edgeInsert_ne (es : List (α × Int)) (k y : α) (v : Int) (hy : y ≠ k) :
    (edgeInsert es k v).find? (fun e => e.1 = y) = es.find? (fun e => e.1 = y) := by
  induction es with
  | nil =>
    simp only [edgeInsert, List.find?_nil]
    rw [List.find?_cons_of_neg _ (by simpa using fun h => hy h.symm), List.find?_nil]
  | cons e t ih =>
    unfold edgeInsert
    by_cases he : e.1 = k
    · rw [if_pos he]
      have h1 : ¬ ((k, v).1 = y) := fun h => hy h.symm
      have h2 : ¬ (e.1 = y) := by rw [he]; exact fun h => hy h.symm
      rw [List.find?_cons_of_neg _ (by simpa using h1), List.find?_cons_of_neg _ (by simpa using h2)]
    · rw [if_neg he]
      by_cases hey : e.1 = y
      · rw [List.find?_cons_of_pos _ (by simpa using hey),
          List.find?_cons_of_pos _ (by simpa using hey)]
      · rw [List.find?_cons_of_neg _ (by simpa using hey),
          List.find?_cons_of_neg _ (by simpa using hey), ih]

lemma connect_false_eq (g : Graph α) (a b : α) (h : (connect g a b).1 = false) :
    (connect g a b).2 = g := by
  unfold connect at *
  by_cases h1 : a = b
  · rw [if_pos h1]
  · rw [if_neg h1]
    by_cases h2 : g.containsKey a = true ∧ g.containsKey b = true
    · rw [if_neg (by simpa using h2)]
      by_cases h3 : a ∈ reachList g b
      · rw [if_pos h3]
      · rw [if_neg h1, if_neg (by simpa using h2), if_neg h3] at h
        simp at h
    · rw [if_pos (by simpa using h2)]

/-- The graph produced by a successful connect: `from`'s node gains the edge
`(hash to, 1)` in its edge map. -/
def connectEffect (g : Graph α) (a b : α) : Graph α :=
  ⟨updateNode g.nodes a (fun n => ⟨n.label, edgeInsert n.edges b 1⟩)⟩

lemma connect_true_eq (g : Graph α) (a b : α) (h : (connect g a b).1 = true) :
    (connect g a b).2 = connectEffect g a b := by
  unfold connect at *
  by_cases h1 : a = b
  · rw [if_pos h1] at h; simp at h
  · rw [if_neg h1] at *
    by_cases h2 : g.containsKey a = true ∧ g.containsKey b = true
    · rw [if_neg (by simpa using h2)] at *
      by_cases h3 : a ∈ reachList g b
      · rw [if_pos h3] at h; simp at h
      · rw [if_neg h3]
        rfl
    · rw [if_pos (by simpa using h2)] at h; simp at h

lemma get_connectEffect_ne (g : Graph α) (a b x : α) (hx : x ≠ a) :
    (connectEffect g a b).get x = g.get x :=
  find?_updateNode_ne g.nodes a x _ (fun _ => rfl) hx

lemma get_connectEffect_eq (g : Graph α) (a b : α) :
    (connectEffect g a b).get a =
      (g.get a).map (fun n => ⟨n.label, edgeInsert n.edges b 1⟩) :=
  find?_updateNode_eq g.nodes a _ (fun _ => rfl)

lemma keyList_connectEffect (g : Graph α) (a b : α) :
    (connectEffect g a b).keyList = g.keyList :=
  updateNode_map_label g.nodes a _ (fun _ => rfl)

lemma edgeWeight_connectEffect_eq (g : Graph α) (a b : α)
    (ha : g.containsKey a = true) :
    (connectEffect g a b).edgeWeight a b = some 1 := by
  unfold containsKey at ha
  rcases hget : g.get a with _ | n
  · rw [hget] at ha; simp at ha
  · unfold edgeWeight
    rw [get_connectEffect_eq, hget]
    simp only [Option.map_some', Option.some_bind]
    rw [find?_edgeInsert_eq]
    rfl

lemma edgeWeight_connectEffect_ne (g : Graph α) (a b x y : α)
    (hxy : ¬ (x = a ∧ y = b)) :
    (connectEffect g a b).edgeWeight x y = g.edgeWeight x y := by
  by_cases hx : x = a
  · subst hx
    have hy : y ≠ b := fun h => hxy ⟨rfl, h⟩
    unfold edgeWeight
    rw [get_connectEffect_eq]
    rcases hget : g.get x with _ | n
    · rfl
    · simp only [Option.map_some', Option.some_bind]
      rw [find?_edgeInsert_ne _ _ _ _ hy]
  · unfold edgeWeight
    rw [get_connectEffect_ne g a b x hx]

/-- Every node's edge map has pairwise-distinct target keys (automatic for a
Rust HashMap; stated explicitly for the association-list embedding). -/
def EdgesNodup (g : Graph α) : Prop :=
  ∀ n ∈ g.nodes, (targetsOf n).Nodup

instance (g : Graph α) : Decidable (EdgesNodup g) := by
  unfold EdgesNodup; infer_instance

lemma find?_edgeRemove_eq_none (es : List (α × Int)) (k : α)
    (hn : (es.map (fun e => e.1)).Nodup) :
    (edgeRemove es k).find? (fun e => e.1 = k) = none := by
  induction es with
  | nil => rfl
  | cons e t ih =>
    simp only [List.map_cons, List.nodup_cons] at hn
    unfold edgeRemove
    by_cases he : e.1 = k
    · rw [if_pos he]
      apply List.find?_eq_none.mpr
      intro x hx
      simp only [decide_eq_true_eq]
      intro hxk
      exact hn.1 (by rw [he, ← hxk]; exact List.mem_map_of_mem _ hx)
    · rw [if_neg he, List.find?_cons_of_neg _ (by simpa using he)]
      exact ih hn.2

lemma find?_edgeRemove_ne (es : List (α × Int)) (k y : α) (hy : y ≠ k) :
    (edgeRemove es k).find? (fun e => e.1 = y) = es.find? (fun e => e.1 = y) := by
  induction es with
  | nil => rfl
  | cons e t ih =>
    unfold edgeRemove
    by_cases he : e.1 = k
    · rw [if_pos he, List.find?_cons_of_neg _ (by simp [he]; exact fun h => hy (h ▸ he ▸ rfl))]
    · rw [if_neg he]
      by_cases hey : e.1 = y
      · rw [List.find?_cons_of_pos _ (by simpa using hey),
          List.find?_cons_of_pos _ (by simpa using hey)]
      · rw [List.find?_cons_of_neg _ (by simpa using hey),
          List.find?_cons_of_neg _ (by simpa using hey), ih]

lemma updateNode_self (l : List (Node α)) (a : α) (f : Node α → Node α)
    (hf : ∀ n, l.find? (fun m => m.label = a) = some n → f n = n) :
    updateNode l a f = l := by
  induction l with
  | nil => rfl
  | cons m t ih =>
    unfold updateNode
    by_cases hm : m.label = a
    · rw [if_pos hm, hf m (List.find?_cons_of_pos _ (by simpa using hm))]
    · rw [if_neg hm, ih]
      intro n hn
      exact hf n (by rw [List.find?_cons_of_neg _ (by simpa using hm)]; exact hn)

lemma edgeInsert_of_found (es : List (α × Int)) (k : α) (v : Int)
    (h : es.find? (fun e => e.1 = k) = some (k, v)) :
    edgeInsert es k v = es := by
  induction es with
  | nil => simp at h
  | cons e t ih =>
    unfold edgeInsert
    by_cases he : e.1 = k
    · rw [if_pos he]
      rw [List.find?_cons_of_pos _ (by simpa using he)] at h
      cases h; rfl
    · rw [if_neg he]
      rw [List.find?_cons_of_neg _ (by simpa using he)] at h
      rw [ih h]

/-- Distinctness of the node keys (automatic for the Rust HashMap keyed by
collision-free hashes). -/
def NodupKeys (g : Graph α) : Prop :=
  g.keyList.Nodup

lemma mem_keyList_insertNode (l : List (Node α)) (n : Node α) (x : α) :
    x ∈ (insertNode l n).map (fun m => m.label) ↔
      x ∈ l.map (fun m => m.label) ∨ x = n.label := by
  induction l with
  | nil => simp [insertNode]
  | cons m t ih =>
    unfold insertNode
    by_cases hm : m.label = n.label
    · simp only [hm, if_true, List.map_cons, List.mem_cons]
      constructor
      · intro h; rcases h with h | h
        · exact Or.inr h
        · exact Or.inl (Or.inr h)
      · intro h; rcases h with (h | h) | h
        · exact Or.inl (hm ▸ h)
        · exact Or.inr h
        · exact Or.inl h
    · simp only [hm, if_false, List.map_cons, List.mem_cons, ih]
      tauto

lemma nodup_insertNode (l : List (Node α)) (n : Node α)
    (h : (l.map (fun m => m.label)).Nodup) :
    ((insertNode l n).map (fun m => m.label)).Nodup := by
  induction l with
  | nil => simp [insertNode]
  | cons m t ih =>
    simp only [List.map_cons, List.nodup_cons] at h
    unfold insertNode
    by_cases hm : m.label = n.label
    · simp only [hm, if_true, List.map_cons, List.nodup_cons]
      exact ⟨hm ▸ h.1, h.2⟩
    · simp only [hm, if_false, List.map_cons, List.nodup_cons]
      refine ⟨?_, ih h.2⟩
      rw [mem_keyList_insertNode]
      rintro (hmem | heq)
      · exact h.1 hmem
      · exact hm heq

lemma get_addNode (g : Graph α) (n : Node α) (x : α) :
    (addNode g n).get x = if x = n.label then some n else g.get x := by
  unfold addNode Graph.get
  induction g.nodes with
  | nil =>
    unfold insertNode
    by_cases hx : x = n.label
    · rw [if_pos hx, List.find?_cons_of_pos _ (by simpa using hx.symm)]
    · rw [if_neg hx, List.find?_cons_of_neg _ (by simpa using fun h => hx h.symm),
        List.find?_nil]
  | cons m t ih =>
    show List.find? _ (insertNode (m :: t) n) = _
    unfold insertNode
    by_cases hm : m.label = n.label
    · rw [if_pos hm]
      by_cases hx : x = n.label
      · rw [if_pos hx, List.find?_cons_of_pos _ (by simpa using hx.symm)]
      · rw [if_neg hx, List.find?_cons_of_neg _ (by simpa using fun h => hx h.symm),
          List.find?_cons_of_neg _ (by rw [hm]; simpa using fun h => hx h.symm)]
    · rw [if_neg hm]
      by_cases hmx : m.label = x
      · have hx : ¬ (x = n.label) := fun h => hm (hmx.symm ▸ h ▸ rfl)
        rw [if_neg hx, List.find?_cons_of_pos _ (by simpa using hmx),
          List.find?_cons_of_pos _ (by simpa using hmx)]
      · rw [List.find?_cons_of_neg _ (by simpa using hmx)]
        by_cases hx : x = n.label
        · rw [if_pos hx] at ih ⊢
          rw [ih]
        · rw [if_neg hx] at ih ⊢
          rw [ih, List.find?_cons_of_neg _ (by simpa using hmx)]

lemma adj_add (g : Graph α) (l x y : α) (h : Adj (g.add l) x y) : Adj g x y := by
  unfold Adj tgt neighborsOpt at h ⊢
  unfold add at h
  rw [get_addNode] at h
  by_cases hx : x = l
  · rw [if_pos hx] at h
    simp [targetsOf] at h
  · rwa [if_neg hx] at h

lemma edgeRemove_sublist (es : List (α × Int)) (k : α) : (edgeRemove es k).Sublist es := by
  induction es with
  | nil => simp [edgeRemove]
  | cons e t ih =>
    unfold edgeRemove
    by_cases he : e.1 = k
    · rw [if_pos he]
      exact List.sublist_cons_of_sublist e (List.Sublist.refl t)
    · rw [if_neg he]
      exact List.Sublist.cons₂ e ih

lemma find?_of_mem_nodup (m : Node α) :
    ∀ (l : List (Node α)), (l.map (fun n => n.label)).Nodup → m ∈ l →
    l.find? (fun n => n.label = m.label) = some m := by
  intro l
  induction l with
  | nil => intro _ hm; simp at hm
  | cons a t ih =>
    intro hnd hm
    simp only [List.map_cons, List.nodup_cons] at hnd
    rcases List.mem_cons.mp hm with h | h
    · subst h
      rw [List.find?_cons_of_pos _ (by simp)]
    · have hne : ¬ (a.label = m.label) := by
        intro he
        exact hnd.1 (he ▸ List.mem_map_of_mem _ h)
      rw [List.find?_cons_of_neg _ (by simpa using hne)]
      exact ih hnd.2 h

lemma get_of_mem_nodup (g : Graph α) (m : Node α) (hnd : NodupKeys g)
    (hm : m ∈ g.nodes) : g.get m.label = some m :=
  find?_of_mem_nodup m g.nodes hnd hm

lemma adj_removeOp (g : Graph α) (l x y : α) (hnd : NodupKeys g)
    (h : Adj (g.removeOp l).2 x y) : Adj g x y := by
  unfold removeOp at h
  rcases hget : g.get l with _ | n
  · rw [hget] at h; exact h
  · rw [hget] at h
    unfold Adj tgt neighborsOpt Graph.get at h
    simp only at h
    rcases hfind : List.find? (fun m => decide (m.label = x))
        ((g.nodes.eraseP (fun m => decide (m.label = l))).map
          (fun m => Node.mk m.label (edgeRemove m.edges l))) with _ | n'
    · rw [hfind] at h; simp at h
    · rw [hfind] at h
      simp only [Option.map_some', Option.getD_some] at h
      have hn'mem := List.mem_of_find?_eq_some hfind
      have hn'lab : n'.label = x := by
        have := List.find?_some hfind
        simpa using this
      obtain ⟨m, hmmem, hmeq⟩ := List.mem_map.mp hn'mem
      have hmorig : m ∈ g.nodes :=
        (List.eraseP_sublist g.nodes).subset hmmem
      have hmlab : m.label = x := by
        rw [← hn'lab, ← hmeq]
      have hy : y ∈ targetsOf m := by
        have hsub : targetsOf n' ⊆ targetsOf m := by
          rw [← hmeq]
          unfold targetsOf
          simp only
          exact fun z hz =>
            (List.Sublist.map (fun e => e.1) (edgeRemove_sublist m.edges l)).subset hz
        exact hsub h
      unfold Adj tgt neighborsOpt
      have hgx : g.get x = some m := hmlab ▸ get_of_mem_nodup g m hnd hmorig
      rw [hgx]
      simpa using hy

lemma targets_edgeInsert (es : List (α × Int)) (k y : α) (v : Int)
    (h : y ∈ (edgeInsert es k v).map (fun e => e.1)) :
    y ∈ es.map (fun e => e.1) ∨ y = k := by
  induction es with
  | nil => simp [edgeInsert] at h; exact Or.inr h
  | cons e t ih =>
    unfold edgeInsert at h
    by_cases he : e.1 = k
    · rw [if_pos he] at h
      simp only [List.map_cons, List.mem_cons] at h ⊢
      rcases h with h | h
      · exact Or.inr h
      · exact Or.inl (Or.inr h)
    · rw [if_neg he] at h
      simp only [List.map_cons, List.mem_cons] at h ⊢
      rcases h with h | h
      · exact Or.inl (Or.inl h)
      · rcases ih h with h2 | h2
        · exact Or.inl (Or.inr h2)
        · exact Or.inr h2

lemma adj_connectEffect (g : Graph α) (a b x y : α)
    (h : Adj (connectEffect g a b) x y) : Adj g x y ∨ (x = a ∧ y = b) := by
  by_cases hx : x = a
  · subst hx
    unfold Adj tgt neighborsOpt at h
    rw [get_connectEffect_eq] at h
    rcases hget : g.get x with _ | n
    · rw [hget] at h; simp at h
    · rw [hget] at h
      simp only [Option.map_some', Option.getD_some] at h
      have := targets_edgeInsert n.edges b y 1 h
      rcases this with h2 | h2
      · left
        unfold Adj tgt neighborsOpt
        rw [hget]
        simpa [targetsOf] using h2
      · exact Or.inr ⟨rfl, h2⟩
  · left
    unfold Adj tgt neighborsOpt at h ⊢
    rwa [get_connectEffect_ne g a b x hx] at h

lemma adj_disconnectEffect (g : Graph α) (a b x y : α)
    (h : Adj (Graph.mk (updateNode g.nodes a
      (fun n => ⟨n.label, edgeRemove n.edges b⟩))) x y) : Adj g x y := by
  by_cases hx : x = a
  · subst hx
    unfold Adj tgt neighborsOpt at h
    rw [show (Graph.mk (updateNode g.nodes x
        (fun n => ⟨n.label, edgeRemove n.edges b⟩))).get x =
        (g.get x).map (fun n => ⟨n.label, edgeRemove n.edges b⟩) from
        find?_updateNode_eq g.nodes x _ (fun _ => rfl)] at h
    rcases hget : g.get x with _ | n
    · rw [hget] at h; simp at h
    · rw [hget] at h
      simp only [Option.map_some', Option.getD_some] at h
      unfold Adj tgt neighborsOpt
      rw [hget]
      simp only [Option.map_some', Option.getD_some]
      unfold targetsOf at h ⊢
      exact (List.Sublist.map (fun e => e.1) (edgeRemove_sublist n.edges b)).subset h
  · unfold Adj tgt neighborsOpt at h ⊢
    rw [show (Graph.mk (updateNode g.nodes a
        (fun n => ⟨n.label, edgeRemove n.edges b⟩))).get x = g.get x from
        find?_updateNode_ne g.nodes a x _ (fun _ => rfl) hx] at h
    exact h

lemma adj_empty (x y : α) : ¬ Adj (empty : Graph α) x y := by
  intro h
  unfold Adj tgt neighborsOpt Graph.get empty at h
  simp at h

lemma acyclic_of_le (r r' : α → α → Prop) (hle : ∀ x y, r' x y → r x y)
    (hac : ∀ x, ¬ Relation.TransGen r x x) : ∀ x, ¬ Relation.TransGen r' x x :=
  fun x hx => hac x (Relation.TransGen.mono hle hx)

lemma rtg_insert_decompose (r r' : α → α → Prop) (a b : α)
    (hsub : ∀ x y, r' x y → r x y ∨ (x = a ∧ y = b)) :
    ∀ u v, Relation.ReflTransGen r' u v →
      Relation.ReflTransGen r u v ∨
      (Relation.ReflTransGen r u a ∧ Relation.ReflTransGen r b v) := by
  intro u v h
  induction h with
  | refl => exact Or.inl Relation.ReflTransGen.refl
  | tail h1 h2 ih =>
    rcases hsub _ _ h2 with hr | ⟨hwa, hvb⟩
    · rcases ih with ihl | ⟨hua, hbw⟩
      · exact Or.inl (ihl.tail hr)
      · exact Or.inr ⟨hua, hbw.tail hr⟩
    · subst hwa
      subst hvb
      rcases ih with ihl | ⟨hua, _⟩
      · exact Or.inr ⟨ihl, Relation.ReflTransGen.refl⟩
      · exact Or.inr ⟨hua, Relation.ReflTransGen.refl⟩

/-- Inserting the single edge `(a, b)` into an acyclic relation keeps it
acyclic provided no path led from `b` back to `a` (the cycle check of
Graph::connect). -/
lemma acyclic_insert (r r' : α → α → Prop) (a b : α)
    (hsub : ∀ x y, r' x y → r x y ∨ (x = a ∧ y = b))
    (hac : ∀ x, ¬ Relation.TransGen r x x)
    (hnr : ¬ Relation.ReflTransGen r b a) :
    ∀ x, ¬ Relation.TransGen r' x x := by
  intro x hx
  obtain ⟨y, hxy, hyx⟩ := Relation.TransGen.head'_iff.mp hx
  rcases hsub _ _ hxy with hr | ⟨hxa, hyb⟩
  · rcases rtg_insert_decompose r r' a b hsub y x hyx with h | ⟨hya, hbx⟩
    · exact hac x (Relation.TransGen.head' hr h)
    · exact hnr ((hbx.tail hr).trans hya)
  · have hyx2 : Relation.ReflTransGen r' b a := by rw [← hxa, ← hyb]; exact hyx
    rcases rtg_insert_decompose r r' a b hsub b a hyx2 with h | ⟨_, hba⟩
    · exact hnr h
    · exact hnr hba

lemma connect_true_elim (g : Graph α) (a b : α) (h : (g.connect a b).1 = true) :
    a ≠ b ∧ a ∉ reachList g b := by
  unfold connect at h
  by_cases h1 : a = b
  · rw [if_pos h1] at h; simp at h
  · rw [if_neg h1] at h
    by_cases h2 : g.containsKey a = true ∧ g.containsKey b = true
    · rw [if_neg (by simpa using h2)] at h
      by_cases h3 : a ∈ reachList g b
      · rw [if_pos h3] at h; simp at h
      · exact ⟨h1, h3⟩
    · rw [if_pos (by simpa using h2)] at h; simp at h

lemma keyList_connect (g : Graph α) (a b : α) :
    (g.connect a b).2.keyList = g.keyList := by
  rcases hres : (g.connect a b).1 with _ | _
  · rw [connect_false_eq g a b hres]
  · rw [connect_true_eq g a b hres]
    exact keyList_connectEffect g a b

lemma acyclic_connect (g : Graph α) (a b : α) (hac : Acyclic g) :
    Acyclic (g.connect a b).2 := by
  rcases hres : (g.connect a b).1 with _ | _
  · rw [connect_false_eq g a b hres]; exact hac
  · rw [connect_true_eq g a b hres]
    obtain ⟨_, hnreach⟩ := connect_true_elim g a b hres
    exact acyclic_insert (Adj g) (Adj (connectEffect g a b)) a b
      (adj_connectEffect g a b) hac
      (fun hr => hnreach ((reach_iff g b a).mpr hr))

lemma acyclic_add (g : Graph α) (l : α) (hac : Acyclic g) : Acyclic (g.add l) :=
  acyclic_of_le _ _ (adj_add g l) hac

lemma acyclic_disconnect (g : Graph α) (a b : α) (hac : Acyclic g) :
    Acyclic (g.disconnect a b).2 := by
  unfold disconnect
  by_cases h : g.containsKey b = true ∧ g.containsKey a = true
  · rw [if_pos (by exact ⟨h.1, h.2⟩)]
    exact acyclic_of_le _ _ (adj_disconnectEffect g a b) hac
  · rw [if_neg (by simpa using fun h1 h2 => h ⟨h1, h2⟩)]
    exact hac

lemma acyclic_removeOp (g : Graph α) (l : α) (hnd : NodupKeys g) (hac : Acyclic g) :
    Acyclic (g.removeOp l).2 :=
  acyclic_of_le _ _ (fun x y h => adj_removeOp g l x y hnd h) hac

lemma acyclic_extendLabels :
    ∀ (ls : List α) (g : Graph α), Acyclic g → Acyclic (g.extendLabels ls) := by
  intro ls
  induction ls with
  | nil => intro g h; exact h
  | cons l t ih =>
    intro g h
    exact ih (g.add l) (acyclic_add g l h)

lemma acyclic_extendEdges :
    ∀ (ps : List (α × α)) (g : Graph α), Acyclic g → Acyclic (g.extendEdges ps) := by
  intro ps
  induction ps with
  | nil => intro g h; exact h
  | cons p t ih =>
    intro g h
    exact ih (g.connect p.1 p.2).2 (acyclic_connect g p.1 p.2 h)

lemma acyclic_empty : Acyclic (empty : Graph α) := by
  intro x hx
  rcases Relation.TransGen.head'_iff.mp hx with ⟨y, hxy, _⟩
  exact adj_empty x y hxy

lemma nodupKeys_empty : NodupKeys (empty : Graph α) := by
  simp [NodupKeys, keyList, empty]

lemma nodupKeys_add (g : Graph α) (l : α) (h : NodupKeys g) : NodupKeys (g.add l) :=
  nodup_insertNode g.nodes _ h

lemma nodupKeys_removeOp (g : Graph α) (l : α) (h : NodupKeys g) :
    NodupKeys (g.removeOp l).2 := by
  unfold removeOp
  rcases hget : g.get l with _ | n
  · exact h
  · unfold NodupKeys keyList at h ⊢
    simp only [List.map_map]
    have : ((g.nodes.eraseP (fun m => decide (m.label = l))).map
        ((fun n => n.label) ∘ (fun m => Node.mk m.label (edgeRemove m.edges l)))) =
        (g.nodes.eraseP (fun m => decide (m.label = l))).map (fun n => n.label) := by
      apply List.map_congr_left
      intro m _
      rfl
    rw [this]
    exact h.sublist (List.Sublist.map _ (List.eraseP_sublist g.nodes))

lemma nodupKeys_connect (g : Graph α) (a b : α) (h : NodupKeys g) :
    NodupKeys (g.connect a b).2 := by
  unfold NodupKeys
  rw [keyList_connect]
  exact h

lemma nodupKeys_disconnect (g : Graph α) (a b : α) (h : NodupKeys g) :
    NodupKeys (g.disconnect a b).2 := by
  unfold disconnect
  by_cases hc : g.containsKey b = true ∧ g.containsKey a = true
  · rw [if_pos (by exact ⟨hc.1, hc.2⟩)]
    unfold NodupKeys keyList
    show (List.map (fun n => n.label) (updateNode g.nodes a
      (fun n => Node.mk n.label (edgeRemove n.edges b)))).Nodup
    rw [updateNode_map_label g.nodes a
      (fun n => Node.mk n.label (edgeRemove n.edges b)) (fun _ => rfl)]
    exact h
  · rw [if_neg (by simpa using fun h1 h2 => hc ⟨h1, h2⟩)]
    exact h

lemma nodupKeys_extendLabels :
    ∀ (ls : List α) (g : Graph α), NodupKeys g → NodupKeys (g.extendLabels ls) := by
  intro ls
  induction ls with
  | nil => intro g h; exact h
  | cons l t ih => intro g h; exact ih (g.add l) (nodupKeys_add g l h)

lemma nodupKeys_extendEdges :
    ∀ (ps : List (α × α)) (g : Graph α), NodupKeys g → NodupKeys (g.extendEdges ps) := by
  intro ps
  induction ps with
  | nil => intro g h; exact h
  | cons p t ih => intro g h; exact ih (g.connect p.1 p.2).2 (nodupKeys_connect g p.1 p.2 h)

/-- One iteration of the inner `for neighbor in graph.neighbors(label)` loop
of Ordering::new (src/src/iter.rs lines 170-179): decrement the tracked
in-degree of each target in order and push every target whose tracked
in-degree reaches 0 (`next.push`, i.e. onto the top of the stack).  The
tracked degrees are a total function here; the Rust `HashMap` panics on a
missing key, which cannot happen for a well-formed graph. -/
def kahnVisit : List α → (α → Nat) → List α → ((α → Nat) × List α)
  | [], degs, stack => (degs, stack)
  | t :: ts, degs, stack =>
    kahnVisit ts (Function.update degs t (degs t - 1))
      (if degs t - 1 = 0 then t :: stack else stack)

/-- The `while let Some(label) = next.pop()` loop of Ordering::new: pop the
top of the stack, emit it, decrement its targets.  The fuel bounds the number
of iterations; `g.size` iterations always suffice for a well-formed acyclic
graph (each node is pushed at most once). -/
def kahnLoop (g : Graph α) : Nat → (α → Nat) → List α → List α
  | 0, _, _ => []
  | _ + 1, _, [] => []
  | fuel + 1, degs, x :: rest =>
    x :: kahnLoop g fuel (kahnVisit (g.tgt x) degs rest).1 (kahnVisit (g.tgt x) degs rest).2

/-- Ordering::new from src/src/iter.rs (lines 163-185): Kahn's algorithm.
The stack is seeded by `next.extend(graph.sources())`, so with the list-model
enumeration the top of the stack is the last source. -/
def ordering (g : Graph α) : List α :=
  kahnLoop g g.size (fun v => indeg g v) (sourcesList g).reverse

/-- Well-formedness facts that hold for every store built through the public
API and are automatic for the Rust HashMap representation: node keys are
pairwise distinct, each node's edge-map keys are pairwise distinct, and every
edge target is a key of the store. -/
def WF (g : Graph α) : Prop :=
  NodupKeys g ∧ EdgesNodup g ∧ ∀ n ∈ g.nodes, ∀ t ∈ targetsOf n, t ∈ g.keyList

instance (g : Graph α) : Decidable (WF g) := by
  unfold WF NodupKeys EdgesNodup; infer_instance

lemma kahnVisit_degs (ts : List α) :
    ∀ (degs : α → Nat) (stack : List α), ts.Nodup → ∀ v,
    (kahnVisit ts degs stack).1 v = if v ∈ ts then degs v - 1 else degs v := by
  induction ts with
  | nil => intro degs stack _ v; simp [kahnVisit]
  | cons t ts ih =>
    intro degs stack hnd v
    simp only [List.nodup_cons] at hnd
    unfold kahnVisit
    rw [ih _ _ hnd.2 v]
    by_cases hv : v ∈ ts
    · have hvt : v ≠ t := fun h => hnd.1 (h ▸ hv)
      rw [if_pos hv, if_pos (List.mem_cons_of_mem _ hv), Function.update_noteq hvt]
    · rw [if_neg hv]
      by_cases hvt : v = t
      · subst hvt
        rw [Function.update_same, if_pos (List.mem_cons_self _ _)]
      · rw [Function.update_noteq hvt, if_neg (by simp [hvt, hv])]

lemma kahnVisit_stack (ts : List α) :
    ∀ (degs : α → Nat) (stack : List α), ts.Nodup →
    (kahnVisit ts degs stack).2 =
      (ts.filter (fun t => degs t - 1 = 0)).reverse ++ stack := by
  induction ts with
  | nil => intro degs stack _; simp [kahnVisit]
  | cons t ts ih =>
    intro degs stack hnd
    simp only [List.nodup_cons] at hnd
    unfold kahnVisit
    rw [ih _ _ hnd.2]
    have hfc : ts.filter (fun s => Function.update degs t (degs t - 1) s - 1 = 0) =
        ts.filter (fun s => degs s - 1 = 0) := by
      apply List.filter_congr
      intro s hs
      have hst : s ≠ t := fun h => hnd.1 (h ▸ hs)
      rw [Function.update_noteq hst]
    rw [hfc, List.filter_cons]
    by_cases hc : degs t - 1 = 0
    · simp [hc, List.append_assoc]
    · simp [hc]

/-- Number of edge-map entries of the already-emitted nodes that target `v`
(the decrements applied to `v`'s tracked in-degree so far). -/
def predCount (g : Graph α) (v : α) (res : List α) : Nat :=
  (res.map (fun u => (g.tgt u).count v)).sum

lemma predCount_snoc (g : Graph α) (v x : α) (res : List α) :
    predCount g v (res ++ [x]) = predCount g v res + (g.tgt x).count v := by
  simp [predCount]

lemma mem_keyList_iff_get (g : Graph α) (x : α) :
    x ∈ g.keyList ↔ ∃ n, g.get x = some n := by
  unfold keyList Graph.get
  constructor
  · intro h
    obtain ⟨n, hn, hl⟩ := List.mem_map.mp h
    have : (g.nodes.find? (fun m => m.label = x)).isSome := by
      rw [List.find?_isSome]
      exact ⟨n, hn, by simpa using hl⟩
    exact Option.isSome_iff_exists.mp this
  · intro ⟨n, hn⟩
    have hm := List.mem_of_find?_eq_some hn
    have hl : n.label = x := by simpa using List.find?_some hn
    exact hl ▸ List.mem_map_of_mem _ hm

lemma indeg_eq_sum_keys (g : Graph α) (hnd : NodupKeys g) (v : α) :
    indeg g v = (g.keyList.map (fun u => (g.tgt u).count v)).sum := by
  unfold indeg keyList
  rw [List.map_map]
  congr 1
  apply List.map_congr_left
  intro n hn
  have hg : g.get n.label = some n := get_of_mem_nodup g n hnd hn
  simp only [Function.comp]
  rw [tgt_of_get_some g n.label n hg]

lemma nat_sum_zero {l : List Nat} (h : l.sum = 0) : ∀ x ∈ l, x = 0 := by
  induction l with
  | nil => intro x hx; simp at hx
  | cons a t ih =>
    intro x hx
    simp only [List.sum_cons] at h
    rcases List.mem_cons.mp hx with hxa | hxt
    · omega
    · exact ih (by omega) x hxt

lemma sum_split (c : α → Nat) (K res : List α) (hK : K.Nodup) (hres : res.Nodup)
    (hsub : ∀ v ∈ res, v ∈ K) :
    (K.map c).sum = (res.map c).sum + ((K.filter (fun u => u ∉ res)).map c).sum := by
  have hperm : List.Perm (K.filter (fun u => decide (u ∈ res)) ++
      K.filter (fun u => !decide (u ∈ res))) K :=
    List.filter_append_perm _ K
  have hsum : (K.map c).sum =
      ((K.filter (fun u => decide (u ∈ res))).map c).sum +
      ((K.filter (fun u => !decide (u ∈ res))).map c).sum := by
    have := (hperm.map c).sum_eq
    rw [List.map_append, List.sum_append] at this
    omega
  have hpr : List.Perm (K.filter (fun u => decide (u ∈ res))) res := by
    rw [List.perm_ext_iff_of_nodup (hK.filter _) hres]
    intro a
    rw [List.mem_filter]
    simp only [decide_eq_true_eq]
    constructor
    · intro h; exact h.2
    · intro h; exact ⟨hsub a h, h⟩
  have h2 : ((K.filter (fun u => decide (u ∈ res))).map c).sum = (res.map c).sum :=
    (hpr.map c).sum_eq
  have h3 : K.filter (fun u => !decide (u ∈ res)) =
      K.filter (fun u => decide (u ∉ res)) := by
    apply List.filter_congr
    intro a _
    by_cases h : a ∈ res <;> simp [h]
  rw [hsum, h2, ← h3]

/-- If the tracked in-degree bookkeeping says every in-edge entry of `v` has
been emitted, then no un-emitted key has an edge to `v`. -/
lemma no_outside_pred (g : Graph α) (v : α) (res : List α) (hnd : NodupKeys g)
    (hres : res.Nodup) (hsub : ∀ u ∈ res, u ∈ g.keyList)
    (heq : predCount g v res = indeg g v) :
    ∀ u ∈ g.keyList, u ∉ res → ¬ Adj g u v := by
  intro u hu hures hadj
  have hsplit := sum_split (fun u => (g.tgt u).count v) g.keyList res hnd hres hsub
  rw [← indeg_eq_sum_keys g hnd v] at hsplit
  unfold predCount at heq
  have hz : (((g.keyList.filter (fun u => u ∉ res)).map
      (fun u => (g.tgt u).count v))).sum = 0 := by omega
  have hu2 : u ∈ g.keyList.filter (fun u => decide (u ∉ res)) := by
    rw [List.mem_filter]
    exact ⟨hu, by simpa using hures⟩
  have := nat_sum_zero hz _ (List.mem_map_of_mem _ hu2)
  unfold Adj at hadj
  rw [List.count_eq_zero] at this
  exact this hadj

/-- Converse bookkeeping direction: if no un-emitted key has an edge to `v`,
the emitted entries account for the whole in-degree of `v`. -/
lemma all_pred_emitted (g : Graph α) (v : α) (res : List α) (hnd : NodupKeys g)
    (hres : res.Nodup) (hsub : ∀ u ∈ res, u ∈ g.keyList)
    (hz : ∀ u ∈ g.keyList, u ∉ res → ¬ Adj g u v) :
    predCount g v res = indeg g v := by
  have hsplit := sum_split (fun u => (g.tgt u).count v) g.keyList res hnd hres hsub
  rw [← indeg_eq_sum_keys g hnd v] at hsplit
  unfold predCount
  have : (((g.keyList.filter (fun u => u ∉ res)).map
      (fun u => (g.tgt u).count v))).sum = 0 := by
    rw [List.sum_eq_zero_iff]
    intro x hx
    obtain ⟨u, hu, hux⟩ := List.mem_map.mp hx
    rw [List.mem_filter] at hu
    have := hz u hu.1 (by simpa using hu.2)
    unfold Adj at this
    rw [← hux, List.count_eq_zero]
    exact this
  omega

/-- Pigeonhole core of Kahn completeness: if every member of a nonempty
finite set has an in-neighbor inside the set, the edge relation has a
directed cycle. -/
lemma cycle_of_all_have_pred (g : Graph α) (U : List α) (hne : U ≠ [])
    (hpred : ∀ v ∈ U, ∃ u, u ∈ U ∧ Adj g u v) :
    ∃ z, Relation.TransGen (Adj g) z z := by
  classical
  have hfex : ∀ v, ∃ u, (v ∈ U → u ∈ U ∧ Adj g u v) := by
    intro v
    by_cases hv : v ∈ U
    · obtain ⟨u, hu⟩ := hpred v hv
      exact ⟨u, fun _ => hu⟩
    · exact ⟨v, fun h => absurd h hv⟩
  choose f hf using hfex
  obtain ⟨v0, hv0⟩ := List.exists_mem_of_ne_nil U hne
  have hitW : ∀ (k : Nat) (w : α), w ∈ U → f^[k] w ∈ U := by
    intro k
    induction k with
    | zero => intro w hw; simpa using hw
    | succ k ih =>
      intro w hw
      rw [Function.iterate_succ_apply']
      exact (hf _ (ih w hw)).1
  have chain : ∀ (k : Nat) (w : α), w ∈ U →
      Relation.TransGen (Adj g) (f^[k + 1] w) w := by
    intro k
    induction k with
    | zero =>
      intro w hw
      rw [Function.iterate_one]
      exact Relation.TransGen.single (hf w hw).2
    | succ k ih =>
      intro w hw
      rw [Function.iterate_succ_apply']
      exact Relation.TransGen.head (hf _ (hitW (k + 1) w hw)).2 (ih w hw)
  have hcard : U.toFinset.card < (Finset.range (U.toFinset.card + 1)).card := by
    simp
  obtain ⟨i, _, j, _, hij, heq⟩ :=
    Finset.exists_ne_map_eq_of_card_lt_of_maps_to hcard
      (fun i _ => by
        show f^[i] v0 ∈ U.toFinset
        rw [List.mem_toFinset]
        exact hitW i v0 hv0)
  have key : ∀ i j : Nat, i < j → f^[i] v0 = f^[j] v0 →
      ∃ z, Relation.TransGen (Adj g) z z := by
    intro i j hlt he
    refine ⟨f^[i] v0, ?_⟩
    have hz : f^[i] v0 ∈ U := hitW i v0 hv0
    have hc := chain (j - i - 1) (f^[i] v0) hz
    have harith : (j - i - 1) + 1 + i = j := by omega
    rw [← Function.iterate_add_apply, harith, ← he] at hc
    exact hc
  rcases Nat.lt_or_ge i j with hlt | hge
  · exact key i j hlt heq
  · have hlt : j < i := by omega
    exact key j i hlt heq.symm

/-- Main invariant of the Kahn loop.  `res` is the (ghost) list of already
emitted labels; `degs` tracks, for every key, its in-degree minus the
decrements due to emitted in-neighbors; the stack holds exactly the ready
(tracked-degree-0) keys that are not yet emitted.  The loop output is then
fresh, within the key set, preceded by all its predecessors, and (with enough
fuel, granted acyclicity) jointly with `res` covers every key. -/
lemma kahn_main (g : Graph α) (hnd : NodupKeys g) (hedg : EdgesNodup g)
    (hcl : ∀ n ∈ g.nodes, ∀ t ∈ targetsOf n, t ∈ g.keyList)
    (hac : Acyclic g) :
    ∀ (fuel : Nat) (degs : α → Nat) (stack res : List α),
    res.Nodup → (∀ v ∈ res, v ∈ g.keyList) →
    stack.Nodup → (∀ v ∈ stack, v ∈ g.keyList) → (∀ v ∈ stack, v ∉ res) →
    (∀ v ∈ g.keyList, degs v + predCount g v res = indeg g v) →
    (∀ v ∈ g.keyList, (degs v = 0 ↔ (v ∈ res ∨ v ∈ stack))) →
    (kahnLoop g fuel degs stack).Nodup ∧
    (∀ v ∈ kahnLoop g fuel degs stack, v ∈ g.keyList ∧ v ∉ res) ∧
    (∀ (o1 : List α) (v : α) (o2 : List α), kahnLoop g fuel degs stack = o1 ++ v :: o2 →
      ∀ u, Adj g u v → u ∈ res ∨ u ∈ o1) ∧
    (g.keyList.length ≤ fuel + res.length →
      ∀ v ∈ g.keyList, v ∈ res ∨ v ∈ kahnLoop g fuel degs stack) := by
  intro fuel
  induction fuel with
  | zero =>
    intro degs stack res hresnd hresK _ _ _ _ _
    refine ⟨by simp [kahnLoop], by simp [kahnLoop], ?_, ?_⟩
    · intro o1 v o2 h
      exfalso
      have : (kahnLoop g 0 degs stack).length = 0 := by simp [kahnLoop]
      rw [h] at this
      simp at this
    · intro hlen v hv
      left
      have hsp := List.Nodup.subperm hresnd (fun x hx => hresK x hx)
      have hperm := hsp.perm_of_length_le (by omega)
      exact hperm.mem_iff.mpr hv
  | succ fuel ih =>
    intro degs stack res hresnd hresK hstknd hstkK hdisj hdeg hzero
    match stack with
    | [] =>
      refine ⟨by simp [kahnLoop], by simp [kahnLoop], ?_, ?_⟩
      · intro o1 v o2 h
        exfalso
        have : (kahnLoop g (fuel + 1) degs ([] : List α)).length = 0 := by simp [kahnLoop]
        rw [h] at this
        simp at this
      · intro _ v hv
        by_contra hcon
        push_neg at hcon
        obtain ⟨hvres, _⟩ := hcon
        have hU : v ∈ g.keyList.filter (fun u => decide (u ∉ res)) := by
          rw [List.mem_filter]
          exact ⟨hv, by simpa using hvres⟩
        have hUne : g.keyList.filter (fun u => decide (u ∉ res)) ≠ [] :=
          List.ne_nil_of_mem hU
        have hpredU : ∀ w ∈ g.keyList.filter (fun u => decide (u ∉ res)),
            ∃ u, u ∈ g.keyList.filter (fun u => decide (u ∉ res)) ∧ Adj g u w := by
          intro w hw
          rw [List.mem_filter] at hw
          obtain ⟨hwK, hwres⟩ := hw
          have hwres2 : w ∉ res := by simpa using hwres
          have hdw : degs w ≠ 0 := by
            intro h0
            rcases (hzero w hwK).mp h0 with h | h
            · exact hwres2 h
            · simp at h
          have hne : predCount g w res ≠ indeg g w := by
            have := hdeg w hwK
            omega
          by_contra hno
          push_neg at hno
          apply hne
          apply all_pred_emitted g w res hnd hresnd hresK
          intro u huK hures hadj
          exact hno u (by rw [List.mem_filter]; exact ⟨huK, by simpa using hures⟩) hadj
        obtain ⟨z, hz⟩ := cycle_of_all_have_pred g _ hUne hpredU
        exact hac z hz
    | x :: rest =>
      simp only [List.nodup_cons] at hstknd
      obtain ⟨hxrest, hrestnd⟩ := hstknd
      have hxK : x ∈ g.keyList := hstkK x (List.mem_cons_self _ _)
      obtain ⟨n, hn⟩ := (mem_keyList_iff_get g x).mp hxK
      have hnmem : n ∈ g.nodes := List.mem_of_find?_eq_some hn
      have htgt : g.tgt x = targetsOf n := tgt_of_get_some g x n hn
      have htnd : (g.tgt x).Nodup := by rw [htgt]; exact hedg n hnmem
      have htK : ∀ t ∈ g.tgt x, t ∈ g.keyList := by
        rw [htgt]; exact hcl n hnmem
      have hxres : x ∉ res := hdisj x (List.mem_cons_self _ _)
      have hdegsx0 : degs x = 0 := (hzero x hxK).mpr (Or.inr (List.mem_cons_self _ _))
      have hpredx : predCount g x res = indeg g x := by
        have := hdeg x hxK; omega
      have hpreds_in_res : ∀ u, Adj g u x → u ∈ res := by
        intro u hu
        by_contra hunr
        exact no_outside_pred g x res hnd hresnd hresK hpredx u (adj_mem_keyList hu) hunr hu
      have hdeg1 : ∀ v ∈ g.tgt x, degs v ≠ 0 := by
        intro v hv h0
        have hvK := htK v hv
        have hAdjxv : Adj g x v := hv
        by_cases hvx : v = x
        · exact hac x (Relation.TransGen.single (hvx ▸ hAdjxv))
        · have hvres : predCount g v res = indeg g v := by
            rcases (hzero v hvK).mp h0 with h | h
            · have := hdeg v hvK; omega
            · rcases List.mem_cons.mp h with h2 | h2
              · exact absurd h2 hvx
              · have := hdeg v hvK; omega
          exact no_outside_pred g v res hnd hresnd hresK hvres x hxK hxres hAdjxv
      -- shorthand for the updated state
      have hdegs2 : ∀ v, (kahnVisit (g.tgt x) degs rest).1 v =
          if v ∈ g.tgt x then degs v - 1 else degs v :=
        kahnVisit_degs (g.tgt x) degs rest htnd
      have hstack2 : (kahnVisit (g.tgt x) degs rest).2 =
          ((g.tgt x).filter (fun t => degs t - 1 = 0)).reverse ++ rest :=
        kahnVisit_stack (g.tgt x) degs rest htnd
      have hpushed_sub : ∀ v ∈ (g.tgt x).filter (fun t => decide (degs t - 1 = 0)),
          v ∈ g.tgt x ∧ degs v = 1 := by
        intro v hv
        rw [List.mem_filter] at hv
        have h1 : degs v - 1 = 0 := by simpa using hv.2
        have h2 := hdeg1 v hv.1
        exact ⟨hv.1, by omega⟩
      have hpushed_fresh : ∀ v ∈ (g.tgt x).filter (fun t => decide (degs t - 1 = 0)),
          v ∉ res ∧ v ≠ x ∧ v ∉ rest := by
        intro v hv
        obtain ⟨hvt, hv1⟩ := hpushed_sub v hv
        refine ⟨?_, ?_, ?_⟩
        · intro hr
          have := (hzero v (htK v hvt)).mpr (Or.inl hr)
          omega
        · intro he
          rw [he] at hv1
          omega
        · intro hr
          have := (hzero v (htK v hvt)).mpr (Or.inr (List.mem_cons_of_mem _ hr))
          omega
      have hresnd2 : (res ++ [x]).Nodup := by
        rw [List.nodup_append]
        exact ⟨hresnd, List.nodup_singleton x,
          fun a ha hax => hxres ((List.mem_singleton.mp hax) ▸ ha)⟩
      have hresK2 : ∀ v ∈ res ++ [x], v ∈ g.keyList := by
        intro v hv
        rcases List.mem_append.mp hv with h | h
        · exact hresK v h
        · exact (List.mem_singleton.mp h) ▸ hxK
      have hstknd2 : ((kahnVisit (g.tgt x) degs rest).2).Nodup := by
        rw [hstack2, List.nodup_append]
        refine ⟨List.nodup_reverse.mpr (htnd.filter _), hrestnd, ?_⟩
        intro a ha har
        rw [List.mem_reverse] at ha
        exact (hpushed_fresh a ha).2.2 har
      have hstkK2 : ∀ v ∈ (kahnVisit (g.tgt x) degs rest).2, v ∈ g.keyList := by
        rw [hstack2]
        intro v hv
        rcases List.mem_append.mp hv with h | h
        · rw [List.mem_reverse] at h
          exact htK v (hpushed_sub v h).1
        · exact hstkK v (List.mem_cons_of_mem _ h)
      have hdisj2 : ∀ v ∈ (kahnVisit (g.tgt x) degs rest).2, v ∉ res ++ [x] := by
        rw [hstack2]
        intro v hv hvr
        rcases List.mem_append.mp hvr with hr | hr
        · rcases List.mem_append.mp hv with h | h
          · rw [List.mem_reverse] at h
            exact (hpushed_fresh v h).1 hr
          · exact hdisj v (List.mem_cons_of_mem _ h) hr
        · rw [List.mem_singleton] at hr
          rcases List.mem_append.mp hv with h | h
          · rw [List.mem_reverse] at h
            exact (hpushed_fresh v h).2.1 hr
          · exact hxrest (hr ▸ h)
      have hdeg2 : ∀ v ∈ g.keyList,
          (kahnVisit (g.tgt x) degs rest).1 v + predCount g v (res ++ [x]) = indeg g v := by
        intro v hvK
        rw [hdegs2 v, predCount_snoc]
        by_cases hvt : v ∈ g.tgt x
        · rw [if_pos hvt, List.count_eq_one_of_mem htnd hvt]
          have h1 := hdeg1 v hvt
          have h2 := hdeg v hvK
          omega
        · rw [if_neg hvt, List.count_eq_zero.mpr hvt]
          have := hdeg v hvK
          omega
      have hzero2 : ∀ v ∈ g.keyList,
          ((kahnVisit (g.tgt x) degs rest).1 v = 0 ↔
            (v ∈ res ++ [x] ∨ v ∈ (kahnVisit (g.tgt x) degs rest).2)) := by
        intro v hvK
        rw [hdegs2 v, hstack2]
        by_cases hvt : v ∈ g.tgt x
        · rw [if_pos hvt]
          have h1 := hdeg1 v hvt
          constructor
          · intro h0
            right
            apply List.mem_append.mpr
            left
            rw [List.mem_reverse, List.mem_filter]
            exact ⟨hvt, by simpa using h0⟩
          · intro h
            rcases h with h | h
            · rcases List.mem_append.mp h with hr | hr
              · have := (hzero v hvK).mpr (Or.inl hr)
                omega
              · rw [List.mem_singleton] at hr
                exact absurd (hr ▸ hvt) (fun hc => hac x (Relation.TransGen.single hc))
            · rcases List.mem_append.mp h with hr | hr
              · rw [List.mem_reverse, List.mem_filter] at hr
                simpa using hr.2
              · have := (hzero v hvK).mpr (Or.inr (List.mem_cons_of_mem _ hr))
                omega
        · rw [if_neg hvt]
          constructor
          · intro h0
            rcases (hzero v hvK).mp h0 with h | h
            · exact Or.inl (List.mem_append.mpr (Or.inl h))
            · rcases List.mem_cons.mp h with h2 | h2
              · exact Or.inl (List.mem_append.mpr (Or.inr (by simp [h2])))
              · exact Or.inr (List.mem_append.mpr (Or.inr h2))
          · intro h
            rcases h with h | h
            · rcases List.mem_append.mp h with hr | hr
              · exact (hzero v hvK).mpr (Or.inl hr)
              · rw [List.mem_singleton] at hr
                exact hr ▸ hdegsx0
            · rcases List.mem_append.mp h with hr | hr
              · rw [List.mem_reverse, List.mem_filter] at hr
                exact absurd hr.1 hvt
              · exact (hzero v hvK).mpr (Or.inr (List.mem_cons_of_mem _ hr))
      obtain ⟨ih1, ih2, ih3, ih4⟩ := ih (kahnVisit (g.tgt x) degs rest).1
        (kahnVisit (g.tgt x) degs rest).2 (res ++ [x])
        hresnd2 hresK2 hstknd2 hstkK2 hdisj2 hdeg2 hzero2
      have hloop : kahnLoop g (fuel + 1) degs (x :: rest) =
          x :: kahnLoop g fuel (kahnVisit (g.tgt x) degs rest).1
            (kahnVisit (g.tgt x) degs rest).2 := rfl
      rw [hloop]
      refine ⟨?_, ?_, ?_, ?_⟩
      · rw [List.nodup_cons]
        refine ⟨?_, ih1⟩
        intro hx
        exact (ih2 x hx).2 (List.mem_append.mpr (Or.inr (List.mem_singleton.mpr rfl)))
      · intro v hv
        rcases List.mem_cons.mp hv with h | h
        · exact h ▸ ⟨hxK, hxres⟩
        · obtain ⟨hK, hres⟩ := ih2 v h
          exact ⟨hK, fun hc => hres (List.mem_append.mpr (Or.inl hc))⟩
      · intro o1 v o2 hsplit u hu
        match o1, hsplit with
        | [], hsplit =>
          have hvx : v = x := by
            simpa using congrArg (fun l => l.head?) hsplit.symm
          left
          exact hpreds_in_res u (hvx ▸ hu)
        | a :: o1t, hsplit =>
          have hax : a = x := by
            simpa using congrArg (fun l => l.head?) hsplit.symm
          have htail : kahnLoop g fuel (kahnVisit (g.tgt x) degs rest).1
              (kahnVisit (g.tgt x) degs rest).2 = o1t ++ v :: o2 := by
            have := congrArg (fun l => l.tail) hsplit
            simpa using this
          rcases ih3 o1t v o2 htail u hu with h | h
          · rcases List.mem_append.mp h with hr | hr
            · exact Or.inl hr
            · rw [List.mem_singleton] at hr
              exact Or.inr (by simp [hax, hr])
          · exact Or.inr (List.mem_cons_of_mem _ h)
      · intro hlen v hv
        have hlen2 : g.keyList.length ≤ fuel + (res ++ [x]).length := by
          rw [List.length_append]
          simp only [List.length_singleton]
          omega
        rcases ih4 hlen2 v hv with h | h
        · rcases List.mem_append.mp h with hr | hr
          · exact Or.inl hr
          · rw [List.mem_singleton] at hr
            exact Or.inr (hr ▸ List.mem_cons_self _ _)
        · exact Or.inr (List.mem_cons_of_mem _ h)

end Graph

/-- Traversal mode (src/src/iter.rs and src/src/search.rs; `Bredth` spelled
as in the source). -/
inductive Mode where
  | Bredth
  | Depth
deriving DecidableEq, Repr

/-- Pop the front of a VecDeque modelled as a list (front = head). -/
def popFront : List α → Option (α × List α)
  | [] => none
  | x :: r => some (x, r)

/-- Pop the back of a VecDeque modelled as a list. -/
def popBack (l : List α) : Option (α × List α) :=
  match popFront l.reverse with
  | none => none
  | some (x, r) => some (x, r.reverse)

/-- Pop the front, discarding entries already visited (the `loop` in
`Walk::next` of src/src/iter.rs). -/
def popFrontSkip : List α → List α → Option (α × List α)
  | [], _ => none
  | x :: r, vis => if x ∈ vis then popFrontSkip r vis else some (x, r)

/-- Pop the back, discarding entries already visited. -/
def popBackSkip (l vis : List α) : Option (α × List α) :=
  match popFrontSkip l.reverse vis with
  | none => none
  | some (x, r) => some (x, r.reverse)

/-- State of the Walk iterator of src/src/iter.rs (buffer front = list
head). -/
structure WalkSt (α : Type) where
  mode : Mode
  buffer : List α
  visited : List α
deriving DecidableEq, Repr

/-- Walk::next from src/src/iter.rs (lines 66-88): pop per mode (Depth from
the front, Bredth from the back), looping past already-visited entries; then
push every neighbor of the popped label to the front (`push_front` one by
one, hence reversed), visited or not, and mark only the popped label
visited. -/
def walkNext (g : Graph α) (s : WalkSt α) : Option (α × WalkSt α) :=
  match (match s.mode with
         | Mode.Bredth => popBackSkip s.buffer s.visited
         | Mode.Depth => popFrontSkip s.buffer s.visited) with
  | none => none
  | some (x, rest) =>
    some (x, { mode := s.mode,
               buffer := ((Graph.neighborsOpt g x).getD []).reverse ++ rest,
               visited := x :: s.visited })

/-- Graph::walk from src/src/iter.rs (lines 44-56): `self.get(start)?` makes
an unknown start label fail with `None`; otherwise the buffer is seeded with
the start and the visited set is empty. -/
def walkInit (g : Graph α) (start : α) (mode : Mode) : Option (WalkSt α) :=
  match g.get start with
  | none => none
  | some _ => some { mode := mode, buffer := [start], visited := [] }

/-- State of the search Iter of src/src/search.rs. -/
structure SearchSt (α : Type) where
  mode : Mode
  buffer : List α
  visited : List α
deriving DecidableEq, Repr

/-- Graph::search from src/src/search.rs (lines 25-37): no membership check
on the start label; buffer seeded with the start, visited pre-seeded with its
key. -/
def searchInit (start : α) (mode : Mode) : SearchSt α :=
  { mode := mode, buffer := [start], visited := [start] }

/-- The sequential neighbor loop of `Iter::next` in src/src/search.rs: for
each connection in order, if unvisited, mark it visited and push it to the
front of the buffer. -/
def searchFold : List α → List α → List α → (List α × List α)
  | [], buf, vis => (buf, vis)
  | c :: cs, buf, vis =>
    if c ∈ vis then searchFold cs buf vis
    else searchFold cs (c :: buf) (c :: vis)

/-- Iter::next from src/src/search.rs (lines 47-67): pop per mode (no skip
loop, no visited check on the popped item), then run the neighbor loop
(`graph.connections(next)`, the same absent-aware adjacency accessor as
`neighbors`). -/
def searchNext (g : Graph α) (s : SearchSt α) : Option (α × SearchSt α) :=
  match (match s.mode with
         | Mode.Bredth => popBack s.buffer
         | Mode.Depth => popFront s.buffer) with
  | none => none
  | some (x, rest) =>
    some (x, { mode := s.mode,
               buffer := (searchFold ((Graph.neighborsOpt g x).getD []) rest s.visited).1,
               visited := (searchFold ((Graph.neighborsOpt g x).getD []) rest s.visited).2 })

/-- Run the search Iter to exhaustion (fuel-bounded; the fuel used by
`searchList` always suffices because every label is pushed at most once). -/
def runSearch (g : Graph α) : Nat → SearchSt α → List α
  | 0, _ => []
  | fuel + 1, s =>
    match searchNext g s with
    | none => []
    | some (x, s2) => x :: runSearch g fuel s2

/-- All labels yielded by `graph.search(start, mode)` of src/src/search.rs. -/
def searchList (g : Graph α) (start : α) (mode : Mode) : List α :=
  runSearch g (Graph.walkFuel g) (searchInit start mode)

/-- Modelled from the spec: the traversal-step contract of spec section 4.2
and claim C7 — Depth removes the next item from the front of the queue,
Breadth from the back; every still-unvisited neighbor of the removed item is
marked visited and inserted at the front, with the same insertion policy in
both modes. -/
def stepSpec (g : Graph α) (mode : Mode) (buf vis : List α) :
    Option (α × List α × List α) :=
  match (match mode with
         | Mode.Bredth => popBack buf
         | Mode.Depth => popFront buf) with
  | none => none
  | some (x, rest) =>
    some (x, searchFold ((Graph.neighborsOpt g x).getD []) rest vis)

/-- Modelled from the spec (amended for C7): the step contract that
`Walk::next` of src/src/iter.rs actually implements — Depth removes from the
front and Breadth from the back, already-visited items being skipped and
discarded at removal time; every neighbor of the removed item (visited or
not) is inserted at the front unmarked, and only the removed item is marked
visited. -/
def walkSpec (g : Graph α) (mode : Mode) (buf vis : List α) :
    Option (α × List α × List α) :=
  match (match mode with
         | Mode.Bredth => popBackSkip buf vis
         | Mode.Depth => popFrontSkip buf vis) with
  | none => none
  | some (x, rest) =>
    some (x, (((Graph.neighborsOpt g x).getD []).reverse ++ rest, x :: vis))

/-- Element from src/src/fmt.rs (lines 50-55): one slot of a layout row. -/
inductive Element (α : Type) where
  | Empty
  | Node
  | Connector (target : α)
deriving DecidableEq, Repr

/-- Element::is_node from src/src/fmt.rs. -/
def Element.isNode : Element α → Bool
  | Element.Node => true
  | _ => false

/-- Row from src/src/fmt.rs (lines 10-13): the slots of one topological
layer, tagged with the layer's label. -/
structure Row (α : Type) where
  label : α
  elements : List (Element α)
deriving DecidableEq, Repr

/-- Row::index_of from src/src/fmt.rs (lines 23-32): first column whose slot
is this row's own Node (when the label asked for is the row label) or a
Connector naming the label. -/
def rowIndexOfAux (lab l : α) : List (Element α) → Nat → Option Nat
  | [], _ => none
  | e :: es, i =>
    match e with
    | Element.Node => if l = lab then some i else rowIndexOfAux lab l es (i + 1)
    | Element.Connector t => if l = t then some i else rowIndexOfAux lab l es (i + 1)
    | Element.Empty => rowIndexOfAux lab l es (i + 1)

def rowIndexOf (r : Row α) (l : α) : Option Nat :=
  rowIndexOfAux r.label l r.elements 0

/-- Display for Row from src/src/fmt.rs (lines 35-48): Empty renders a blank,
Node the label's display text, Connector a vertical bar; slots joined by a
single space. -/
def rowDisplay (disp : α → String) (r : Row α) : String :=
  String.intercalate (" ") (r.elements.map (fun e =>
    match e with
    | Element.Empty => " "
    | Element.Node => disp r.label
    | Element.Connector _ => "|"))

/-- Graph::draw_connector from src/src/fmt.rs (lines 113-115): the body of
the source function is empty, so it draws nothing and returns the grid
unchanged. -/
def drawConnector (grid : List (List Char)) (colFrom colTo : Nat) : List (List Char) :=
  grid

/-- The grid built by Graph::draw_connectors (src/src/fmt.rs lines 92-111):
for each Connector slot one path, for the Node slot one path per neighbor of
the previous row's label; the `.unwrap()` on `index_of` is modelled by
`getD 0` (it never fires in the evaluated scenarios). -/
def connectorsGrid (g : Graph α) (prev next : Row α) : List (List Char) :=
  prev.elements.enum.foldl
    (fun grid ie =>
      match ie.2 with
      | Element.Connector l => drawConnector grid ie.1 ((rowIndexOf next l).getD 0)
      | Element.Node =>
        (g.tgt prev.label).foldl
          (fun g2 nb => drawConnector g2 ie.1 ((rowIndexOf next nb).getD 0)) grid
      | Element.Empty => grid)
    []

/-- Graph::draw_connectors result string: the grid lines joined with the raw
string `r"\n"`, i.e. the two characters backslash and n, exactly as in the
source. -/
def drawConnectors (g : Graph α) (prev next : Row α) : String :=
  String.intercalate ("\\n") ((connectorsGrid g prev next).map (fun line => String.mk line))

/-- The `next_element` match of Graph::get_rows (src/src/fmt.rs lines
129-149). -/
def scanElem (label : α) (placed : Bool) : Element α → Option (Element α)
  | Element.Empty => if placed then none else some Element.Node
  | Element.Connector l =>
    if l = label then (if placed then none else some Element.Node)
    else some (Element.Connector l)
  | Element.Node => none

/-- The pushes of one iteration of the scan of Graph::get_rows (src/src/fmt.rs
lines 150-173) and the `placed_node` flag after them: the `new_element` push
(Some branch sets `placed_node` when the element is a Node; the None branch
consumes an obligation when placed, else places the Node), the conditional
extra Node push (which does not set `placed_node`), and the full drain of the
remaining obligations as trailing Connector slots (so the obligation queue is
empty from the second iteration on). -/
def scanPush (placed : Bool) (obs : List α) : Option (Element α) → (List (Element α) × Bool)
  | some el =>
    ((el :: (if placed || Element.isNode el then [] else [Element.Node]) ++
      obs.map (fun o => Element.Connector o)), placed || Element.isNode el)
  | none =>
    if placed then
      ((((obs.head?.map (fun o => Element.Connector o)).getD Element.Empty) ::
        (obs.drop 1).map (fun o => Element.Connector o)), placed)
    else
      ((Element.Node :: obs.map (fun o => Element.Connector o)), true)

/-- The `for prev_element in &prev_row.elements` scan of Graph::get_rows
(src/src/fmt.rs lines 128-174). -/
def rowScan (label : α) : List (Element α) → Bool → List α → List (Element α)
  | [], _, _ => []
  | e :: es, placed, obs =>
    (scanPush placed obs (scanElem label placed e)).1 ++
      rowScan label es (scanPush placed obs (scanElem label placed e)).2 []

/-- Build the row of `label` from the previous row (the loop body of
Graph::get_rows for a non-first label): the obligation queue is seeded with
the previous row's neighbors, the current label filtered out. -/
def rowStep (g : Graph α) (label : α) (prev : Row α) : Row α :=
  { label := label,
    elements := rowScan label prev.elements false
      ((g.tgt prev.label).filter (fun l => ¬ l = label)) }

/-- Graph::get_rows from src/src/fmt.rs (lines 117-183): one Row per label of
the topological ordering; the first label's row is a single Node slot, each
later row is built from the last row pushed. -/
def getRows (g : Graph α) : List (Row α) :=
  (Graph.ordering g).foldl
    (fun rows label =>
      match rows.getLast? with
      | none => rows ++ [⟨label, [Element.Node]⟩]
      | some prev => rows ++ [rowStep g label prev])
    []

/-- The row/connector line sequence of Graph::diagram (src/src/fmt.rs lines
75-90).  The source indexes `rows[i]` unconditionally and would panic on an
empty graph; the empty case is unreachable in the evaluated scenarios. -/
def diagramLines (g : Graph α) (disp : α → String) : List (Row α) → List String
  | [] => []
  | [r] => [rowDisplay disp r]
  | r1 :: r2 :: rest =>
    rowDisplay disp r1 :: drawConnectors g r1 r2 :: diagramLines g disp (r2 :: rest)

/-- Graph::diagram from src/src/fmt.rs: the lines joined with the raw string
`r"\n"` (backslash + n), exactly as written in the source. -/
def diagram (g : Graph α) (disp : α → String) : String :=
  String.intercalate ("\\n") (diagramLines g disp (getRows g))

/-- Parts from src/src/util.rs (lines 79-82): the component-partition
iterator, owning the drained graph and the key-to-component-tag map. -/
structure Parts (α : Type) where
  graph : Graph α
  disjoint : List (α × α)
deriving DecidableEq, Repr

/-- HashMap::insert on the disjoint map (overwrite or append). -/
def tagInsert : List (α × α) → α → α → List (α × α)
  | [], k, v => [(k, v)]
  | e :: t, k, v => if e.1 = k then (k, v) :: t else e :: tagInsert t k v

/-- Parts::new from src/src/util.rs (lines 84-103): for each source in
enumeration order, tag every label reached by a Depth walk from it with that
source's key; later walks overwrite earlier tags. -/
def partsNew (g : Graph α) : Parts α :=
  { graph := g,
    disjoint := (Graph.sourcesList g).foldl
      (fun d s => (Graph.reachList g s).foldl (fun d2 k => tagInsert d2 k s) d) [] }

/-- Graph::pick from src/src/util.rs: the first label in enumeration
order. -/
def pickLabel (g : Graph α) : Option α :=
  g.keyList.head?

/-- The `for key in part` loop of Parts::next: move each tagged node (edge
map intact) out of the source graph into the fresh graph; `?` aborts with
`none` when a key is missing. -/
def movePart : List (α × α) → Graph α → Graph α → Option (Graph α × Graph α)
  | [], src, acc => some (acc, src)
  | kv :: t, src, acc =>
    match src.get kv.1 with
    | none => none
    | some n =>
      movePart t ⟨src.nodes.eraseP (fun m => m.label = kv.1)⟩ (Graph.addNode acc n)

/-- Parts::next from src/src/util.rs (lines 105-126): pick any remaining
node, partition the disjoint map on its tag, relocate the co-tagged nodes
into a fresh graph and yield it. -/
def partsNext (p : Parts α) : Option (Graph α × Parts α) :=
  match pickLabel p.graph with
  | none => none
  | some next =>
    match (p.disjoint.find? (fun kv => kv.1 = next)).map (fun kv => kv.2) with
    | none => none
    | some parent =>
      match movePart (p.disjoint.filter (fun kv => kv.2 = parent)) p.graph Graph.empty with
      | none => none
      | some (part, rest) =>
        some (part, { graph := rest, disjoint := p.disjoint.filter (fun kv => ¬ kv.2 = parent) })

/-- Run the Parts iterator to exhaustion (each yielded part removes at least
the picked node, so `g.size` pulls suffice). -/
def runParts (g : Graph α) : Nat → Parts α → List (Graph α)
  | 0, _ => []
  | fuel + 1, p =>
    match partsNext p with
    | none => []
    | some (part, p2) => part :: runParts g fuel p2

/-- All components yielded by `g.partition()`. -/
def partitionList (g : Graph α) : List (Graph α) :=
  runParts g g.size (partsNew g)

/-- Graphs reachable from the empty store by the public Store operations:
add, remove, connect, disconnect, init and the two Extend implementations
(labels and edge pairs). -/
inductive Built : Graph α → Prop where
  | emp : Built Graph.empty
  | addOp (g : Graph α) (l : α) : Built g → Built (g.add l)
  | remOp (g : Graph α) (l : α) : Built g → Built (g.removeOp l).2
  | conOp (g : Graph α) (a b : α) : Built g → Built (g.connect a b).2
  | disOp (g : Graph α) (a b : α) : Built g → Built (g.disconnect a b).2
  | initOp (ls : List α) : Built (Graph.init ls)
  | extLOp (g : Graph α) (ls : List α) : Built g → Built (g.extendLabels ls)
  | extEOp (g : Graph α) (ps : List (α × α)) : Built g → Built (g.extendEdges ps)

lemma built_nodupKeys {g : Graph α} (hb : Built g) : Graph.NodupKeys g := by
  induction hb with
  | emp => exact Graph.nodupKeys_empty
  | addOp g l _ ih => exact Graph.nodupKeys_add g l ih
  | remOp g l _ ih => exact Graph.nodupKeys_removeOp g l ih
  | conOp g a b _ ih => exact Graph.nodupKeys_connect g a b ih
  | disOp g a b _ ih => exact Graph.nodupKeys_disconnect g a b ih
  | initOp ls => exact Graph.nodupKeys_extendLabels ls Graph.empty Graph.nodupKeys_empty
  | extLOp g ls _ ih => exact Graph.nodupKeys_extendLabels ls g ih
  | extEOp g ps _ ih => exact Graph.nodupKeys_extendEdges ps g ih

lemma built_acyclic {g : Graph α} (hb : Built g) : Graph.Acyclic g := by
  induction hb with
  | emp => exact Graph.acyclic_empty
  | addOp g l _ ih => exact Graph.acyclic_add g l ih
  | remOp g l hg ih => exact Graph.acyclic_removeOp g l (built_nodupKeys hg) ih
  | conOp g a b _ ih => exact Graph.acyclic_connect g a b ih
  | disOp g a b _ ih => exact Graph.acyclic_disconnect g a b ih
  | initOp ls => exact Graph.acyclic_extendLabels ls Graph.empty Graph.acyclic_empty
  | extLOp g ls _ ih => exact Graph.acyclic_extendLabels ls g ih
  | extEOp g ps _ ih => exact Graph.acyclic_extendEdges ps g ih

open Graph

/-- C1: Graph::connect (src/src/graph.rs lines 78-97) accepts exactly when
both endpoint nodes exist, the endpoints differ, and there is no directed
path from `to` back to `from`; on success it inserts exactly the edge
`(from, to)` with weight 1 (key set and every other edge weight unchanged);
on failure the graph is unchanged.  The embedded operation is a total
function, so failure is signalled solely through the boolean component. -/
theorem connect_spec (g : Graph α) (a b : α) :
    ((g.connect a b).1 = true ↔
      g.containsKey a = true ∧ g.containsKey b = true ∧ a ≠ b ∧
        ¬ Relation.ReflTransGen (Adj g) b a) ∧
    ((g.connect a b).1 = true →
      (g.connect a b).2.keyList = g.keyList ∧
      (g.connect a b).2.edgeWeight a b = some 1 ∧
      ∀ x y : α, ¬ (x = a ∧ y = b) →
        (g.connect a b).2.edgeWeight x y = g.edgeWeight x y) ∧
    ((g.connect a b).1 = false → (g.connect a b).2 = g) := by
  refine ⟨?_, ?_, connect_false_eq g a b⟩
  · unfold connect
    by_cases h1 : a = b
    · rw [if_pos h1]
      exact iff_of_false (by simp) (fun h => h.2.2.1 h1)
    · rw [if_neg h1]
      by_cases h2 : g.containsKey a = true ∧ g.containsKey b = true
      · rw [if_neg (by simpa using h2)]
        by_cases h3 : a ∈ reachList g b
        · rw [if_pos h3]
          exact iff_of_false (by simp) (fun h => h.2.2.2 ((reach_iff g b a).mp h3))
        · rw [if_neg h3]
          exact iff_of_true rfl ⟨h2.1, h2.2, h1, fun hr => h3 ((reach_iff g b a).mpr hr)⟩
      · rw [if_pos (by simpa using h2)]
        exact iff_of_false (by simp) (fun h => h2 ⟨h.1, h.2.1⟩)
  · intro htrue
    have heq := connect_true_eq g a b htrue
    have ha : g.containsKey a = true := by
      unfold connect at htrue
      by_cases h1 : a = b
      · rw [if_pos h1] at htrue; simp at htrue
      · rw [if_neg h1] at htrue
        by_cases h2 : g.containsKey a = true ∧ g.containsKey b = true
        · exact h2.1
        · rw [if_pos (by simpa using h2)] at htrue; simp at htrue
    rw [heq]
    exact ⟨keyList_connectEffect g a b, edgeWeight_connectEffect_eq g a b ha,
      fun x y hxy => edgeWeight_connectEffect_ne g a b x y hxy⟩

/-- Witness for C1 at a concrete input: connecting 0 to 1 in the two-node
graph is accepted. -/
theorem connect_spec_witness :
    (Graph.connect (Graph.init [0, 1]) 0 1).1 = true :=
  (connect_spec (Graph.init [0, 1]) 0 1).1.mpr
    ⟨by decide, by decide, by decide, fun hr =>
      absurd ((reach_iff (Graph.init [0, 1]) 1 0).mpr hr) (by decide)⟩

/-- C2: every graph reachable from the empty store by any sequence of Store
operations (add, remove, connect, disconnect, init, extend) has an edge
relation with no self-edge and no directed cycle: acyclicity is an invariant
preserved by every operation. -/
theorem store_acyclic_invariant (g : Graph α) (hb : Built g) :
    (∀ x, ¬ Adj g x x) ∧ (∀ x, ¬ Relation.TransGen (Adj g) x x) := by
  have hac := built_acyclic hb
  exact ⟨fun x hx => hac x (Relation.TransGen.single hx), hac⟩

/-- Witness for C2 at a concrete input: after a -> b, b -> c and an attempt
at the cycle-closing c -> a, the store has no self-edge at a and no cycle
through a. -/
theorem store_acyclic_invariant_witness :
    ¬ Adj (Graph.extendEdges (Graph.init [0, 1, 2]) [(0, 1), (1, 2), (2, 0)]) 0 0 :=
  (store_acyclic_invariant _ (Built.extEOp _ _ (Built.initOp _))).1 0

/-- Shared characterization of Ordering::new on a well-formed acyclic graph:
no duplicates, exactly the node set, full length, and edge-respecting
positions. -/
lemma ordering_props (g : Graph α) (hwf : WF g) (hac : Acyclic g) :
    (ordering g).Nodup ∧
    (∀ v, v ∈ ordering g ↔ v ∈ g.keyList) ∧
    (ordering g).length = g.size ∧
    (∀ u v, Adj g u v → (ordering g).indexOf u < (ordering g).indexOf v) := by
  obtain ⟨hnd, hedg, hclB⟩ := hwf
  have hKnd : g.keyList.Nodup := hnd
  have hsrc_nd : ((sourcesList g).reverse).Nodup :=
    List.nodup_reverse.mpr (hKnd.filter _)
  have hsrc_K : ∀ v ∈ (sourcesList g).reverse, v ∈ g.keyList := by
    intro v hv
    rw [List.mem_reverse] at hv
    exact List.mem_of_mem_filter hv
  have hdeg0 : ∀ v ∈ g.keyList,
      (fun v => indeg g v) v + predCount g v [] = indeg g v := by
    intro v _
    simp [predCount]
  have hzero0 : ∀ v ∈ g.keyList,
      ((fun v => indeg g v) v = 0 ↔ (v ∈ ([] : List α) ∨ v ∈ (sourcesList g).reverse)) := by
    intro v hvK
    simp only [List.not_mem_nil, false_or, List.mem_reverse]
    unfold sourcesList
    rw [List.mem_filter]
    simp only [decide_eq_true_eq]
    constructor
    · intro h; exact ⟨hvK, h⟩
    · intro h; exact h.2
  obtain ⟨h1, h2, h3, h4⟩ := kahn_main g hnd hedg hclB hac g.size
    (fun v => indeg g v) ((sourcesList g).reverse) [] List.nodup_nil
    (by intro v hv; simp at hv) hsrc_nd hsrc_K
    (by intro v hv; simp) hdeg0 hzero0
  have hord : kahnLoop g g.size (fun v => indeg g v) (sourcesList g).reverse =
      ordering g := rfl
  rw [hord] at h1 h2 h3 h4
  have hKlen : g.keyList.length = g.size := by
    unfold keyList size
    simp
  have hcov : ∀ v ∈ g.keyList, v ∈ ordering g := by
    intro v hv
    rcases h4 (by omega) v hv with h | h
    · simp at h
    · exact h
  have hmem : ∀ v, v ∈ ordering g ↔ v ∈ g.keyList := by
    intro v
    constructor
    · intro h; exact (h2 v h).1
    · intro h; exact hcov v h
  refine ⟨h1, hmem, ?_, ?_⟩
  · have hperm : List.Perm (ordering g) g.keyList := by
      rw [List.perm_ext_iff_of_nodup h1 hKnd]
      exact hmem
    rw [hperm.length_eq, hKlen]
  · intro u v huv
    have huK : u ∈ g.keyList := adj_mem_keyList huv
    have hvK : v ∈ g.keyList := by
      unfold Adj tgt neighborsOpt at huv
      rcases hget : g.get u with _ | n
      · rw [hget] at huv; simp at huv
      · rw [hget] at huv
        simp only [Option.map_some', Option.getD_some] at huv
        exact hclB n (List.mem_of_find?_eq_some hget) v huv
    have hvord : v ∈ ordering g := hcov v hvK
    obtain ⟨o1, o2, hsplit⟩ := List.append_of_mem hvord
    have huo1 : u ∈ o1 := by
      rcases h3 o1 v o2 hsplit u huv with h | h
      · simp at h
      · exact h
    have hvno1 : v ∉ o1 := by
      have := h1
      rw [hsplit, List.nodup_append] at this
      intro hc
      exact this.2.2 hc (List.mem_cons_self _ _)
    rw [hsplit, List.indexOf_append_of_mem huo1, List.indexOf_append_of_not_mem hvno1,
      List.indexOf_cons_self]
    have := List.indexOf_lt_length.mpr huo1
    omega

/-- C3: for a well-formed acyclic graph, the topological ordering produced by
Ordering::new lists every node exactly once (its length equals the node
count) and places the source of every stored edge strictly before its
target. -/
theorem ordering_topological (g : Graph α) (hwf : WF g) (hac : Acyclic g) :
    (Graph.ordering g).Nodup ∧
    (∀ v, v ∈ Graph.ordering g ↔ v ∈ g.keyList) ∧
    (Graph.ordering g).length = g.size ∧
    (∀ u v, Graph.Adj g u v →
      (Graph.ordering g).indexOf u < (Graph.ordering g).indexOf v) :=
  ordering_props g hwf hac

/-- Witness for C3 at a concrete input: the spec scenario a, b, c with edges
a -> b, a -> c, b -> c (labels 0, 1, 2). -/
theorem ordering_topological_witness :
    (ordering (Graph.extendEdges (Graph.init [0, 1, 2]) [(0, 1), (0, 2), (1, 2)])).length =
      (Graph.extendEdges (Graph.init [0, 1, 2]) [(0, 1), (0, 2), (1, 2)]).size ∧
    (ordering (Graph.extendEdges (Graph.init [0, 1, 2]) [(0, 1), (0, 2), (1, 2)])).indexOf 0 <
      (ordering (Graph.extendEdges (Graph.init [0, 1, 2]) [(0, 1), (0, 2), (1, 2)])).indexOf 2 := by
  have h := ordering_topological
    (Graph.extendEdges (Graph.init [0, 1, 2]) [(0, 1), (0, 2), (1, 2)])
    (by decide) ((acyclicB_iff _).mp (by decide))
  exact ⟨h.2.2.1, h.2.2.2 0 2 (by decide)⟩

/-- C7 counterexample: in the graph with the single edge 0 -> 1, the first
Depth step of the iter.rs Walk removes 0, whose neighbor 1 is still
unvisited, yet the post-step visited set is exactly [0]: the removed item's
unvisited neighbors are inserted at the front but NOT marked visited,
refuting the claimed step contract for Walk::next. -/
theorem walk_step_claim_cex :
    walkNext (Graph.extendEdges (Graph.init [0, 1]) [(0, 1)])
        ⟨Mode.Depth, [0], []⟩ =
      some (0, ⟨Mode.Depth, [1], [0]⟩) ∧
    1 ∈ Graph.tgt (Graph.extendEdges (Graph.init [0, 1]) [(0, 1)]) 0 ∧
    ¬ (1 : Nat) ∈ ([] : List Nat) ∧
    ¬ (1 : Nat) ∈ [0] := by
  decide

/-- C7 amended: the search.rs Iter step implements the claimed contract
exactly (Depth removes from the front, Breadth from the back, every
still-unvisited neighbor of the removed item is marked visited and inserted
at the front, the insertion policy identical in both modes), while the
iter.rs Walk step removes from the same ends but skips and discards
already-visited items at removal, inserts every neighbor at the front
unmarked, and marks only the removed item visited. -/
theorem step_mechanics_amended (g : Graph α) (mode : Mode) (buf vis : List α) :
    searchNext g ⟨mode, buf, vis⟩ =
      (stepSpec g mode buf vis).map (fun p => (p.1, SearchSt.mk mode p.2.1 p.2.2)) ∧
    walkNext g ⟨mode, buf, vis⟩ =
      (walkSpec g mode buf vis).map (fun p => (p.1, WalkSt.mk mode p.2.1 p.2.2)) := by
  constructor
  · unfold searchNext stepSpec
    rcases mode with _ | _
    · rcases hp : popBack buf with _ | ⟨x, rest⟩ <;> simp [hp]
    · rcases hp : popFront buf with _ | ⟨x, rest⟩ <;> simp [hp]
  · unfold walkNext walkSpec
    rcases mode with _ | _
    · rcases hp : popBackSkip buf vis with _ | ⟨x, rest⟩ <;> simp [hp]
    · rcases hp : popFrontSkip buf vis with _ | ⟨x, rest⟩ <;> simp [hp]

/-- C8 counterexample: calling the search.rs entry point (`search`/`bfs`/
`dfs`) with a start label absent from the graph does not fail — it yields
the absent start label itself as a traversal item. -/
theorem search_absent_start_cex :
    searchList (Graph.init [0]) 5 Mode.Depth = [5] ∧
    Graph.containsKey (Graph.init [0]) 5 = false := by
  decide

/-- C8 amended: Graph::walk of src/src/iter.rs fails with the absent-start
result (`None`, hence no traversal items) on an unknown start label, while
Graph::search of src/src/search.rs performs no membership check and yields
exactly the absent start label. -/
theorem absent_start_amended (g : Graph α) (l : α) (mode : Mode)
    (h : g.containsKey l = false) :
    walkInit g l mode = none ∧ searchList g l mode = [l] := by
  have hget : g.get l = none := by
    unfold Graph.containsKey at h
    exact Option.not_isSome_iff_eq_none.mp (by simp [h])
  constructor
  · unfold walkInit
    rw [hget]
  · unfold searchList
    obtain ⟨k, hk⟩ : ∃ k, Graph.walkFuel g = k + 1 :=
      ⟨(g.nodes.map (fun n => 1 + n.edges.length)).sum, by unfold Graph.walkFuel; omega⟩
    rw [hk]
    unfold runSearch searchInit
    have hstep : searchNext g ⟨mode, [l], [l]⟩ = some (l, ⟨mode, [], [l]⟩) := by
      unfold searchNext
      rcases mode with _ | _
      · simp [popBack, popFront, Graph.neighborsOpt, hget, searchFold]
      · simp [popFront, Graph.neighborsOpt, hget, searchFold]
    rw [hstep]
    rcases k with _ | k2
    · rfl
    · show l :: runSearch g (k2 + 1) ⟨mode, [], [l]⟩ = [l]
      have : searchNext g ⟨mode, [], [l]⟩ = none := by
        unfold searchNext
        rcases mode with _ | _
        · simp [popBack, popFront]
        · simp [popFront]
      unfold runSearch
      rw [this]

/-- Witness for the amended C8 at a concrete input. -/
theorem absent_start_amended_witness :
    Graph.containsKey (Graph.init [0]) 5 = false ∧
    walkInit (Graph.init [0]) 5 Mode.Bredth = none ∧
    searchList (Graph.init [0]) 5 Mode.Bredth = [5] :=
  ⟨by decide, (absent_start_amended (Graph.init [0]) 5 Mode.Bredth (by decide)).1,
    (absent_start_amended (Graph.init [0]) 5 Mode.Bredth (by decide)).2⟩

lemma adj_target_mem (g : Graph α)
    (hcl : ∀ n ∈ g.nodes, ∀ t ∈ Graph.targetsOf n, t ∈ g.keyList)
    {u v : α} (h : Adj g u v) : v ∈ g.keyList := by
  unfold Graph.Adj Graph.tgt Graph.neighborsOpt at h
  rcases hget : g.get u with _ | n
  · rw [hget] at h; simp at h
  · rw [hget] at h
    simp only [Option.map_some', Option.getD_some] at h
    exact hcl n (List.mem_of_find?_eq_some hget) v h

/-- What one slot of the previous row becomes once the scan has already
placed the Node slot and drained the obligations (every iteration after the
first): the row's own Node slot and any Connector naming the current label
degrade to Empty, other Connectors are carried unchanged. -/
def connFix (label : α) : Element α → Element α :=
  fun e =>
    match e with
    | Element.Connector l => if l = label then Element.Empty else Element.Connector l
    | _ => Element.Empty

lemma rowScan_placed (label : α) :
    ∀ es : List (Element α), rowScan label es true [] = es.map (connFix label) := by
  intro es
  induction es with
  | nil => rfl
  | cons e t ih =>
    cases e with
    | Empty => simpa [rowScan, scanElem, scanPush, connFix] using ih
    | Node => simpa [rowScan, scanElem, scanPush, connFix] using ih
    | Connector l =>
      by_cases hl : l = label
      · simpa [rowScan, scanElem, scanPush, connFix, hl] using ih
      · simpa [rowScan, scanElem, scanPush, connFix, hl, Element.isNode] using ih

lemma rowStep_elements (g : Graph α) (label : α) (prev : Row α)
    (es : List (Element α)) (h : prev.elements = Element.Node :: es) :
    (rowStep g label prev).elements =
      Element.Node ::
        (((g.tgt prev.label).filter (fun l => ¬ l = label)).map
          (fun o => Element.Connector o) ++ es.map (connFix label)) := by
  unfold rowStep
  simp only [h]
  show rowScan label (Element.Node :: es) false
      ((g.tgt prev.label).filter (fun l => ¬ l = label)) = _
  rw [show rowScan label (Element.Node :: es) false
      ((g.tgt prev.label).filter (fun l => ¬ l = label)) =
      (scanPush false ((g.tgt prev.label).filter (fun l => ¬ l = label))
        (scanElem label false Element.Node)).1 ++
      rowScan label es (scanPush false ((g.tgt prev.label).filter (fun l => ¬ l = label))
        (scanElem label false Element.Node)).2 [] from rfl]
  rw [show scanElem label false (Element.Node : Element α) = none from rfl]
  rw [show scanPush false ((g.tgt prev.label).filter (fun l => ¬ l = label))
      (none : Option (Element α)) =
      ((Element.Node :: ((g.tgt prev.label).filter (fun l => ¬ l = label)).map
        (fun o => Element.Connector o)), true) from rfl]
  rw [rowScan_placed]
  simp

lemma mem_connFix_connector (label l : α) (es : List (Element α))
    (h : Element.Connector l ∈ es.map (connFix label)) :
    Element.Connector l ∈ es ∧ ¬ l = label := by
  obtain ⟨e, he, heq⟩ := List.mem_map.mp h
  cases e with
  | Empty => simp [connFix] at heq
  | Node => simp [connFix] at heq
  | Connector l2 =>
    by_cases hl : l2 = label
    · simp [connFix, hl] at heq
    · simp only [connFix, hl, if_false] at heq
      cases heq
      exact ⟨he, hl⟩

lemma filter_isNode_nil (l : List (Element α))
    (h : ∀ e ∈ l, Element.isNode e = false) : l.filter Element.isNode = [] := by
  induction l with
  | nil => rfl
  | cons e t ih =>
    rw [List.filter_cons, h e (List.mem_cons_self _ _)]
    exact ih (fun x hx => h x (List.mem_cons_of_mem _ hx))

/-- Per-row invariant for C4 (relative to the graph's topological ordering):
the first slot is the row's Node slot, exactly one slot is a Node slot, and
every Connector slot names a label placed strictly later in the (duplicate-
free) ordering — equivalently, a label drawn as the Node slot of a strictly
later row and of no earlier one. -/
def RowInv (g : Graph α) (r : Row α) : Prop :=
  r.elements.head? = some Element.Node ∧
  (r.elements.filter Element.isNode).length = 1 ∧
  ∀ l, Element.Connector l ∈ r.elements →
    l ∈ Graph.ordering g ∧
    (Graph.ordering g).indexOf r.label < (Graph.ordering g).indexOf l

/-- The fold of Graph::get_rows, starting from an arbitrary accumulated
prefix of rows. -/
def getRowsAux (g : Graph α) (rows : List (Row α)) (labels : List α) : List (Row α) :=
  labels.foldl
    (fun rows label =>
      match rows.getLast? with
      | none => rows ++ [⟨label, [Element.Node]⟩]
      | some prev => rows ++ [rowStep g label prev])
    rows

lemma getRows_eq_aux (g : Graph α) : getRows g = getRowsAux g [] (Graph.ordering g) := rfl

lemma indexOf_split (ord pre0 : List α) (x : α) (suf : List α)
    (hnd : ord.Nodup) (h : ord = pre0 ++ x :: suf) : ord.indexOf x = pre0.length := by
  subst h
  have hx : x ∉ pre0 := by
    rw [List.nodup_append] at hnd
    intro hc
    exact hnd.2.2 hc (List.mem_cons_self _ _)
  rw [List.indexOf_append_of_not_mem hx, List.indexOf_cons_self]
  omega

lemma getRowsAux_inv (g : Graph α) (hwf : WF g) (hac : Acyclic g) :
    ∀ (suf pre : List α) (rows : List (Row α)),
    Graph.ordering g = pre ++ suf →
    rows.map Row.label = pre →
    (∀ r, rows.head? = some r → r.elements = [Element.Node]) →
    (∀ r ∈ rows, RowInv g r) →
    (getRowsAux g rows suf).map Row.label = pre ++ suf ∧
    (∀ r, (getRowsAux g rows suf).head? = some r → r.elements = [Element.Node]) ∧
    (∀ r ∈ getRowsAux g rows suf, RowInv g r) := by
  obtain ⟨hond, homem, _, hoord⟩ := ordering_props g hwf hac
  obtain ⟨_, _, hcl⟩ := hwf
  intro suf
  induction suf with
  | nil =>
    intro pre rows hsplit hmap hhead hinv
    refine ⟨by simpa using hmap, hhead, hinv⟩
  | cons label suf ih =>
    intro pre rows hsplit hmap hhead hinv
    have hstep : getRowsAux g rows (label :: suf) =
        getRowsAux g (match rows.getLast? with
          | none => rows ++ [⟨label, [Element.Node]⟩]
          | some prev => rows ++ [rowStep g label prev]) suf := rfl
    rcases hlast : rows.getLast? with _ | prev
    · have hrows : rows = [] := by
        cases rows with
        | nil => rfl
        | cons a t => simp [List.getLast?_concat] at hlast
      subst hrows
      have hpre : pre = [] := by simpa using hmap.symm
      subst hpre
      rw [hstep, hlast]
      have hnew : RowInv g ⟨label, [Element.Node]⟩ := by
        refine ⟨rfl, rfl, ?_⟩
        intro l hl
        simp at hl
      have := ih [label] [⟨label, [Element.Node]⟩]
        (by simpa using hsplit) (by simp) (by intro r hr; cases hr; rfl)
        (by intro r hr; rcases List.mem_singleton.mp hr with rfl; exact hnew)
      simpa using this
    · obtain ⟨rows0, hrows0⟩ := List.getLast?_eq_some_iff.mp hlast
      have hprevmem : prev ∈ rows := by
        rw [hrows0]
        exact List.mem_append.mpr (Or.inr (List.mem_singleton.mpr rfl))
      obtain ⟨hphead, _, hpconn⟩ := hinv prev hprevmem
      obtain ⟨es, hes⟩ : ∃ es, prev.elements = Element.Node :: es := by
        cases helems : prev.elements with
        | nil => rw [helems] at hphead; simp at hphead
        | cons e t =>
          rw [helems] at hphead
          simp only [List.head?_cons, Option.some_inj] at hphead
          exact ⟨t, by rw [hphead]⟩
      have hpre : pre = rows0.map Row.label ++ [prev.label] := by
        rw [← hmap, hrows0, List.map_append]
        rfl
      have hsplit2 : Graph.ordering g =
          rows0.map Row.label ++ prev.label :: label :: suf := by
        rw [hsplit, hpre]
        simp
      have hidxprev : (Graph.ordering g).indexOf prev.label = (rows0.map Row.label).length :=
        indexOf_split _ _ _ _ hond hsplit2
      have hsplit3 : Graph.ordering g =
          (rows0.map Row.label ++ [prev.label]) ++ label :: suf := by
        rw [hsplit, hpre]
      have hidxlabel : (Graph.ordering g).indexOf label =
          (rows0.map Row.label).length + 1 := by
        have := indexOf_split _ _ _ _ hond hsplit3
        rw [this, List.length_append]
        rfl
      have hlabelmem : label ∈ Graph.ordering g := by
        rw [hsplit]
        exact List.mem_append.mpr (Or.inr (List.mem_cons_self _ _))
      -- the key step fact: the freshly built row satisfies the invariant
      have hconnlater : ∀ l, l ∈ Graph.ordering g →
          (Graph.ordering g).indexOf prev.label < (Graph.ordering g).indexOf l →
          ¬ l = label →
          (Graph.ordering g).indexOf label < (Graph.ordering g).indexOf l := by
        intro l hlmem hlt hne
        have hne2 : (Graph.ordering g).indexOf l ≠ (Graph.ordering g).indexOf label := by
          intro he
          exact hne ((List.indexOf_inj hlmem hlabelmem).mp he)
        omega
      have hnew : RowInv g (rowStep g label prev) := by
        rw [RowInv, rowStep_elements g label prev es hes]
        refine ⟨rfl, ?_, ?_⟩
        · rw [List.filter_cons]
          have h1 : (((g.tgt prev.label).filter (fun l => ¬ l = label)).map
              (fun o => Element.Connector o)).filter Element.isNode = [] := by
            apply filter_isNode_nil
            intro e he
            obtain ⟨o, _, ho⟩ := List.mem_map.mp he
            rw [← ho]
            rfl
          have h2 : (es.map (connFix label)).filter Element.isNode = [] := by
            apply filter_isNode_nil
            intro e he
            obtain ⟨o, _, ho⟩ := List.mem_map.mp he
            rw [← ho]
            cases o with
            | Empty => rfl
            | Node => rfl
            | Connector l2 =>
              by_cases hl : l2 = label
              · simp [connFix, hl, Element.isNode]
              · simp [connFix, hl, Element.isNode]
          rw [List.filter_append, h1, h2]
          rfl
        · intro l hl
          rcases List.mem_cons.mp hl with he | he
          · simp at he
          · rcases List.mem_append.mp he with hobs | hcarry
            · obtain ⟨o, ho, hoeq⟩ := List.mem_map.mp hobs
              have hol : o = l := by cases hoeq; rfl
              rw [hol] at ho
              rw [List.mem_filter] at ho
              have hadj : Adj g prev.label l := ho.1
              have hnl : ¬ l = label := by simpa using ho.2
              have hlmem : l ∈ Graph.ordering g :=
                (homem l).mpr (adj_target_mem g hcl hadj)
              have hlt := hoord prev.label l hadj
              exact ⟨hlmem, hconnlater l hlmem hlt hnl⟩
            · obtain ⟨hin, hnl⟩ := mem_connFix_connector label l es hcarry
              have := hpconn l (by rw [hes]; exact List.mem_cons_of_mem _ hin)
              exact ⟨this.1, hconnlater l this.1 this.2 hnl⟩
      rw [hstep, hlast]
      have hrowsne : rows ≠ [] := by
        rw [hrows0]
        simp
      have := ih (pre ++ [label]) (rows ++ [rowStep g label prev])
        (by rw [hsplit]; simp)
        (by rw [List.map_append, hmap]; rfl)
        (by
          intro r hr
          rw [List.head?_append_of_ne_nil rows hrowsne] at hr
          exact hhead r hr)
        (by
          intro r hr
          rcases List.mem_append.mp hr with h1 | h1
          · exact hinv r h1
          · rcases List.mem_singleton.mp h1 with rfl
            exact hnew)
      constructor
      · rw [this.1]
        simp
      · exact ⟨this.2.1, this.2.2⟩

/-- C4: for a well-formed acyclic graph, Graph::get_rows produces one Row
per label in topological order, the first Row is a single Node slot, every
Row contains exactly one Node slot, and every Connector slot names a label
that sits strictly later in the (duplicate-free) topological ordering —
i.e. a label that appears as the Node slot of a strictly later Row and has
not been drawn by any earlier Row. -/
theorem rows_layout_invariant (g : Graph α) (hwf : WF g) (hac : Acyclic g) :
    (getRows g).map Row.label = Graph.ordering g ∧
    (∀ r, (getRows g).head? = some r → r.elements = [Element.Node]) ∧
    (∀ r ∈ getRows g,
      (r.elements.filter Element.isNode).length = 1 ∧
      ∀ l, Element.Connector l ∈ r.elements →
        l ∈ Graph.ordering g ∧
        (Graph.ordering g).indexOf r.label < (Graph.ordering g).indexOf l) := by
  have h := getRowsAux_inv g hwf hac (Graph.ordering g) [] []
    (by simp) rfl (by intro r hr; simp at hr) (by intro r hr; simp at hr)
  rw [← getRows_eq_aux g] at h
  refine ⟨by simpa using h.1, h.2.1, ?_⟩
  intro r hr
  obtain ⟨_, h2, h3⟩ := h.2.2 r hr
  exact ⟨h2, h3⟩

/-- Witness for C4 at a concrete input: the three-node diamond a -> b,
a -> c, b -> c (labels 0, 1, 2). -/
theorem rows_layout_invariant_witness :
    (getRows (Graph.extendEdges (Graph.init [0, 1, 2]) [(0, 1), (0, 2), (1, 2)])).map
      Row.label =
      Graph.ordering (Graph.extendEdges (Graph.init [0, 1, 2]) [(0, 1), (0, 2), (1, 2)]) :=
  (rows_layout_invariant (Graph.extendEdges (Graph.init [0, 1, 2]) [(0, 1), (0, 2), (1, 2)])
    (by decide) ((acyclicB_iff _).mp (by decide))).1

/-- C5: evaluation of Graph::diagram on the spec scenario (labels a, b, c
with edges a -> b and b -> c).  The three rows render as single columns, but
`draw_connector` has an empty body so every connector block is the empty
string, and the lines are joined with the raw string `r"\n"` (the two
characters backslash and n), not with newline characters.  The result is
therefore `a\n\nb\n\nc` written with literal backslashes — not the three
newline-joined rows with single `|` connector lines that the claim (and the
source's own `connected_line` test) expects. -/
theorem diagram_line_scenario_eval :
    diagram (Graph.extendEdges (Graph.init ["a", "b", "c"]) [("a", "b"), ("b", "c")]) id =
      "a\\n\\nb\\n\\nc" ∧
    (getRows (Graph.extendEdges (Graph.init ["a", "b", "c"]) [("a", "b"), ("b", "c")])).map
      (fun r => r.elements) = [[Element.Node], [Element.Node], [Element.Node]] ∧
    "a\\n\\nb\\n\\nc" ≠ "a\n|\nb\n|\nc" := by
  refine ⟨by decide, by decide, by decide⟩

/-- C6: evaluation of the partition on the graph with nodes 0, 1, 2 and
edges 0 -> 2 and 1 -> 2 (one weakly connected component).  The walks from the
two sources both reach node 2 and the second walk overwrites its tag, so the
partition yields the two parts {0} and {2, 1} although the edge 0 -> 2 of the
original graph connects nodes in different parts (and part {0} keeps a
dangling edge to the absent node 2). -/
theorem partition_crossing_eval :
    Graph.Adj (Graph.extendEdges (Graph.init [0, 1, 2]) [(0, 2), (1, 2)]) 0 2 ∧
    (partitionList (Graph.extendEdges (Graph.init [0, 1, 2]) [(0, 2), (1, 2)])).map
      Graph.keyList = [[0], [2, 1]] ∧
    (partitionList (Graph.extendEdges (Graph.init [0, 1, 2]) [(0, 2), (1, 2)])).map
      (fun part => part.nodes.map Node.edges) = [[[(2, 1)]], [[], [(2, 1)]]] := by
  refine ⟨by decide, by decide, by decide⟩

/-- C9 counterexample: on the two-node graph with no edges at all,
Graph::disconnect 0 1 returns `true` (the "removed" result) although the
edge (0, 1) is not present, refuting "returns true exactly when the edge is
present"; the graph itself is unchanged. -/
theorem disconnect_claim_cex :
    (Graph.disconnect (Graph.init [0, 1]) 0 1).1 = true ∧
    Graph.edgeWeight (Graph.init [0, 1]) 0 1 = none ∧
    (Graph.disconnect (Graph.init [0, 1]) 0 1).2 = Graph.init [0, 1] := by
  refine ⟨by decide, by decide, by decide⟩

/-- C9 amended: Graph::disconnect (src/src/graph.rs lines 99-110) returns
`true` iff both endpoint nodes exist (regardless of whether the edge exists);
when it returns `true` it removes the edge `(from, to)` if present and leaves
every other key and edge unchanged; when it returns `false` the graph is
unchanged. -/
theorem disconnect_spec (g : Graph α) (a b : α) (hn : EdgesNodup g) :
    ((g.disconnect a b).1 = true ↔
      g.containsKey a = true ∧ g.containsKey b = true) ∧
    ((g.disconnect a b).1 = true →
      (g.disconnect a b).2.keyList = g.keyList ∧
      (g.disconnect a b).2.edgeWeight a b = none ∧
      ∀ x y : α, ¬ (x = a ∧ y = b) →
        (g.disconnect a b).2.edgeWeight x y = g.edgeWeight x y) ∧
    ((g.disconnect a b).1 = false → (g.disconnect a b).2 = g) := by
  unfold disconnect
  by_cases h : g.containsKey b = true ∧ g.containsKey a = true
  · rw [if_pos (by exact ⟨h.1, h.2⟩)]
    refine ⟨iff_of_true rfl ⟨h.2, h.1⟩, ?_, by intro hh; simp at hh⟩
    intro _
    refine ⟨updateNode_map_label g.nodes a _ (fun _ => rfl), ?_, ?_⟩
    · unfold edgeWeight
      rw [show (Graph.mk (updateNode g.nodes a
          (fun n => ⟨n.label, edgeRemove n.edges b⟩))).get a =
          (g.get a).map (fun n => ⟨n.label, edgeRemove n.edges b⟩) from
          find?_updateNode_eq g.nodes a _ (fun _ => rfl)]
      rcases hget : g.get a with _ | n
      · rfl
      · simp only [Option.map_some', Option.some_bind]
        rw [find?_edgeRemove_eq_none _ _ (hn n (List.mem_of_find?_eq_some hget))]
        rfl
    · intro x y hxy
      by_cases hx : x = a
      · subst hx
        have hy : y ≠ b := fun hh => hxy ⟨rfl, hh⟩
        unfold edgeWeight
        rw [show (Graph.mk (updateNode g.nodes x
            (fun n => ⟨n.label, edgeRemove n.edges b⟩))).get x =
            (g.get x).map (fun n => ⟨n.label, edgeRemove n.edges b⟩) from
            find?_updateNode_eq g.nodes x _ (fun _ => rfl)]
        rcases hget : g.get x with _ | n
        · rfl
        · simp only [Option.map_some', Option.some_bind]
          rw [find?_edgeRemove_ne _ _ _ hy]
      · unfold edgeWeight
        rw [show (Graph.mk (updateNode g.nodes a
            (fun n => ⟨n.label, edgeRemove n.edges b⟩))).get x = g.get x from
            find?_updateNode_ne g.nodes a x _ (fun _ => rfl) hx]
  · rw [if_neg (by simpa using fun h1 h2 => h ⟨h1, h2⟩)]
    refine ⟨iff_of_false (by simp) (fun hh => h ⟨hh.2, hh.1⟩), by intro hh; simp at hh,
      fun _ => rfl⟩

/-- Witness for the amended C9 at a concrete input: disconnecting the stored
edge 0 -> 1 succeeds and erases exactly that edge. -/
theorem disconnect_spec_witness :
    ((Graph.connect (Graph.init [0, 1]) 0 1).2.disconnect 0 1).1 = true ∧
    ((Graph.connect (Graph.init [0, 1]) 0 1).2.disconnect 0 1).2.edgeWeight 0 1 = none := by
  have h := disconnect_spec (Graph.connect (Graph.init [0, 1]) 0 1).2 0 1 (by decide)
  have h1 : ((Graph.connect (Graph.init [0, 1]) 0 1).2.disconnect 0 1).1 = true :=
    h.1.mpr ⟨by decide, by decide⟩
  exact ⟨h1, (h.2.1 h1).2.1⟩

/-- C10: reconnecting an edge that is already present (with its invariant
weight 1) in an acyclic graph whose target node exists is accepted and leaves
the graph bit-for-bit unchanged: accepted connections are idempotent
(src/src/graph.rs test no_cycles, lines 183-186). -/
theorem connect_idem (g : Graph α) (a b : α) (hac : Acyclic g)
    (hb : g.containsKey b = true) (hw : g.edgeWeight a b = some 1) :
    g.connect a b = (true, g) := by
  unfold edgeWeight at hw
  rcases hget : g.get a with _ | n
  · rw [hget] at hw; simp at hw
  · rw [hget] at hw
    simp only [Option.some_bind, Option.map_eq_some'] at hw
    obtain ⟨e, hfind, hev⟩ := hw
    have heb : e.1 = b := by
      have := List.find?_some hfind
      simpa using this
    have hemem : e ∈ n.edges := List.mem_of_find?_eq_some hfind
    have hadj : Adj g a b := by
      unfold Adj tgt neighborsOpt
      rw [hget]
      simp only [Option.map_some', Option.getD_some]
      unfold targetsOf
      exact heb ▸ List.mem_map_of_mem _ hemem
    have hab : a ≠ b := by
      intro h
      exact hac a (Relation.TransGen.single (h ▸ hadj))
    have hnr : ¬ a ∈ reachList g b := by
      intro h
      exact hac a (Relation.TransGen.head' hadj ((reach_iff g b a).mp h))
    have ha : g.containsKey a = true := by
      unfold containsKey
      rw [hget]; rfl
    unfold connect
    rw [if_neg hab, if_neg (by simp [ha, hb]), if_neg hnr]
    have hfix : updateNode g.nodes a (fun n => ⟨n.label, edgeInsert n.edges b 1⟩) = g.nodes := by
      apply updateNode_self
      intro m hm
      have hmn : m = n := by
        unfold Graph.get at hget
        rw [hget] at hm
        cases hm; rfl
      subst hmn
      have he2 : e = (b, (1 : Int)) := by
        rcases e with ⟨e1, e2⟩
        simp only at heb hev
        rw [heb, hev]
      have : edgeInsert m.edges b 1 = m.edges :=
        edgeInsert_of_found m.edges b 1 (he2 ▸ hfind)
      rw [this]
    rw [hfix]

/-- Witness for C10 at a concrete input: reconnecting the existing edge
0 -> 1 is accepted and returns the unchanged graph. -/
theorem connect_idem_witness :
    Graph.connect (Graph.connect (Graph.init [0, 1]) 0 1).2 0 1 =
      (true, (Graph.connect (Graph.init [0, 1]) 0 1).2) :=
  connect_idem (Graph.connect (Graph.init [0, 1]) 0 1).2 0 1
    ((acyclicB_iff _).mp (by decide)) (by decide) (by decide)

end Grust
